import Mathlib

/-!
Verification of the data-wrangling pipeline in `src/data/wrangle.py`.

The script is a linear batch pipeline over JSON/CSV reference data.  We give a
shallow embedding: JSON records become Lean structures, Python `dict`s become
association lists with insertion-order semantics (update-in-place on existing
keys, append on new keys, `del` removes the entry), Python's stable `list.sort`
becomes `List.insertionSort` (any two stable sorts by the same key agree
elementwise, so this is extensionally Python's Timsort), and the working
directory becomes a `Store` of parsed file contents keyed by file name.  File
contents are compared at the level of parsed values; `json.dump` with a fixed
indent is a deterministic injective serializer on these values, so value
equality is byte equality of the written files.  Fallible code (`KeyError`
from `rename`, `IndexError`/`ValueError` in the CSV loop) is modelled with
`Except`/`Option`.
-/

deriving instance DecidableEq for Except

namespace Wrangle

/-! ### Python dict as an association list (insertion order preserved) -/

/-- Assignment `d[k] = v` on a Python dict: update the first entry with key
`k` in place, or append a new entry at the end. -/
def write {β : Type} : List (String × β) → String → β → List (String × β)
  | [], k, v => [(k, v)]
  | e :: t, k, v => if e.1 = k then (k, v) :: t else e :: write t k v

/-- Lookup `d[k]` / `k in d` on a Python dict. -/
def lookupD {β : Type} : List (String × β) → String → Option β
  | [], _ => none
  | e :: t, k => if e.1 = k then some e.2 else lookupD t k

/-- Deletion `del d[k]` / `d.pop(k, None)` on a Python dict: remove the entry
with key `k` when present. -/
def eraseK {β : Type} : List (String × β) → String → List (String × β)
  | [], _ => []
  | e :: t, k => if e.1 = k then t else e :: eraseK t k

/-- A sequence of dict assignments (or file writes), performed left to right. -/
def writeAll {β : Type} (p : List (String × β)) (m : List (String × β)) :
    List (String × β) :=
  p.foldl (fun m e => write m e.1 e.2) m

/-- The keys of a dict, in insertion order. -/
def keys {β : Type} (m : List (String × β)) : List String :=
  m.map Prod.fst

/-- Left-biased choice on `Option`, used to describe lookups after writes. -/
def olu {β : Type} (a b : Option β) : Option β :=
  match a with
  | some x => some x
  | none => b

/-- The value of the last write with key `k` in the write sequence `p`. -/
def lastVal {β : Type} (p : List (String × β)) (k : String) : Option β :=
  lookupD p.reverse k

/-! ### String helpers translated from the Python builtins used by the script -/

/-- Membership in Python's `string.printable`: ASCII 0x20-0x7e together with
the whitespace characters tab, newline, vertical tab, form feed, carriage
return. -/
def printableChar (c : Char) : Bool :=
  (32 ≤ c.toNat && c.toNat ≤ 126) || (9 ≤ c.toNat && c.toNat ≤ 13)

/-- The `fprint` lambda of `continent_to_capitals`: keep only characters of
`string.printable`. -/
def fprint (s : String) : String :=
  String.mk (s.data.filter printableChar)

/-- Python's `str.strip()` whitespace set (ASCII part). -/
def isPySpace (c : Char) : Bool :=
  c = ' ' || c = '\t' || c = '\n' || c = '\r' || c = '\x0b' || c = '\x0c'

/-- Python's `str.strip()`: drop leading and trailing whitespace. -/
def pyStrip (s : String) : String :=
  String.mk (((s.data.dropWhile isPySpace).reverse.dropWhile isPySpace).reverse)

/-- Python's `pop.replace(",", "")`: remove every comma. -/
def removeCommas (s : String) : String :=
  String.mk (s.data.filter (fun c => c != ','))

/-- Value of a nonempty all-digit character list. -/
def digitsToNat (l : List Char) : Nat :=
  l.foldl (fun a c => a * 10 + (c.toNat - 48)) 0

/-- Parse a digit string, failing on empty or non-digit input. -/
def parseDigits (l : List Char) : Option Nat :=
  if l.isEmpty then none
  else if l.all Char.isDigit then some (digitsToNat l)
  else none

/-- Python's `int(s)` on a decimal string: optional surrounding whitespace,
optional sign, digits; anything else raises `ValueError` (modelled as
`none`). -/
def pyInt (s : String) : Option Int :=
  match (pyStrip s).data with
  | [] => none
  | '-' :: rest => (parseDigits rest).map (fun n => -(n : Int))
  | '+' :: rest => (parseDigits rest).map (fun n => (n : Int))
  | l => (parseDigits l).map (fun n => (n : Int))

/-- The file-name mangling `continent.replace(" ", "_").lower()` (replacing a
single-character pattern is a character map; `str.lower` on the ASCII data at
hand is `Char.toLower`). -/
def mangle (s : String) : String :=
  String.mk (s.data.map (fun c => Char.toLower (if c = ' ' then '_' else c)))

/-! ### Records of the four datasets -/

/-- A record of `country_continent.json`. -/
structure CCRec where
  country : String
  continent : String
deriving DecidableEq

/-- A record of `country_capital.json`. -/
structure CapRec where
  country : String
  city : String
deriving DecidableEq

/-- A record of `country_area.json`. -/
structure AreaRec where
  country : String
  area : Int
deriving DecidableEq

/-- A record of `country_population.json`. -/
structure PopRec where
  country : String
  population : Int
deriving DecidableEq

/-! ### Sorting relations (Python `list.sort(key=...)` on the country field) -/

/-- Order on continent records used by `continent_fixup` (`key=lambda x:
x["country"]`). -/
def ccLE (a b : CCRec) : Prop := a.country ≤ b.country

instance : DecidableRel ccLE := fun a b =>
  inferInstanceAs (Decidable (a.country ≤ b.country))

instance : IsTotal CCRec ccLE := ⟨fun a b => le_total a.country b.country⟩

instance : IsTrans CCRec ccLE := ⟨fun _ _ _ h h' => le_trans h h'⟩

/-- Order on capital records used by `capital_fixup`. -/
def capLE (a b : CapRec) : Prop := a.country ≤ b.country

instance : DecidableRel capLE := fun a b =>
  inferInstanceAs (Decidable (a.country ≤ b.country))

instance : IsTotal CapRec capLE := ⟨fun a b => le_total a.country b.country⟩

instance : IsTrans CapRec capLE := ⟨fun _ _ _ h h' => le_trans h h'⟩

/-- Order on plain strings used for the per-continent country lists. -/
def strLE (a b : String) : Prop := a ≤ b

instance : DecidableRel strLE := fun a b =>
  inferInstanceAs (Decidable (a ≤ b))

instance : IsTotal String strLE := ⟨fun a b => le_total a b⟩

instance : IsTrans String strLE := ⟨fun _ _ _ h h' => le_trans h h'⟩

/-! ### Continent normalizer -/

/-- The string constant "Holy See (Vatican City State)". -/
def holySee : String := "Holy See (Vatican City State)"

/-- The in-place rename performed by `continent_fixup` on one record. -/
def renameCC (r : CCRec) : CCRec :=
  if r.country = holySee then { r with country := "Vatican City" } else r

/-- The `continent_fixup()` transformation of `country_continent.json`:
rename the one mislabeled entry, then sort by country. -/
def continentFixup (l : List CCRec) : List CCRec :=
  List.insertionSort ccLE (l.map renameCC)

/-- One step of the `defaultdict(list)` grouping loop:
`res[obj["continent"]].append(obj["country"])`. -/
def appendAt : List (String × List String) → String → String →
    List (String × List String)
  | [], k, x => [(k, [x])]
  | e :: t, k, x => if e.1 = k then (e.1, e.2 ++ [x]) :: t else e :: appendAt t k x

/-- The grouping loop of `split_by_continent`. -/
def groupByContinent (l : List CCRec) : List (String × List String) :=
  l.foldl (fun m r => appendAt m r.continent r.country) []

/-- The `split_by_continent()` transformation: group countries by continent,
sort each group, producing the content of `continent_to_country.json`. -/
def splitByContinent (l : List CCRec) : List (String × List String) :=
  (groupByContinent l).map (fun e => (e.1, List.insertionSort strLE e.2))

/-! ### Capital corrector -/

/-- The capital overrides assigned before the `capitals.pop(...)` line of
`capital_fixup`. -/
def overridesA : List (String × String) :=
  [("Belgium", "Brussels"), ("Colombia", "Bogota"), ("Finland", "Helsinki")]

/-- The capital overrides assigned after the `capitals.pop(...)` line of
`capital_fixup`. -/
def overridesB : List (String × String) :=
  [("Vatican City", "Vatican City"),
   ("Luxembourg", "Luxembourg"),
   ("Marshall Islands", "Majuro"),
   ("Mexico", "Mexico City"),
   ("Myanmar", "Naypyidaw"),
   ("Palau", "Ngerulmud"),
   ("Palestine", "Ramallah"),
   ("Panama", "Panama City"),
   ("Sri Lanka", "Colombo"),
   ("Togo", "Lome"),
   ("Western Sahara", "Laayoune"),
   ("Chile", "Santiago"),
   ("Cuba", "Havana"),
   ("Dominican Republic", "Santo Domingo"),
   ("Guatemala", "Guatemala City"),
   ("Cook Islands", "Avarua"),
   ("China", "Beijing"),
   ("Bahrain", "Manama"),
   ("Mongolia", "Ulaanbaatar"),
   ("Oman", "Muscat"),
   ("Uzbekistan", "Tashkent"),
   ("Austria", "Vienna"),
   ("Czech Republic", "Prague"),
   ("Faroe Islands", "Torshavn"),
   ("Greece", "Athens"),
   ("Monaco", "Monaco"),
   ("Italy", "Rome"),
   ("Romania", "Bucharest"),
   ("Portugal", "Lisbon"),
   ("Poland", "Warsaw")]

/-- All 33 hardcoded capital overrides, in program order. -/
def overridePairs : List (String × String) := overridesA ++ overridesB

/-- The dict comprehension `{c["country"]: c["city"] for c in capitals}`
(last write wins on duplicate countries). -/
def fromRecs (l : List CapRec) : List (String × String) :=
  writeAll (l.map (fun c => (c.country, c.city))) []

/-- Conversion back to a record list:
`[{"country": k, "city": v} for k, v in capitals.items()]`. -/
def toRecs (m : List (String × String)) : List CapRec :=
  m.map (fun e => CapRec.mk e.1 e.2)

/-- The block of assignments and the single `pop` in `capital_fixup`, in
program order. -/
def applyOverrides (m : List (String × String)) : List (String × String) :=
  writeAll overridesB (eraseK (writeAll overridesA m) holySee)

/-- The `capital_fixup()` transformation of `country_capital.json`. -/
def capitalFixup (l : List CapRec) : List CapRec :=
  List.insertionSort capLE (toRecs (applyOverrides (fromRecs l)))

/-! ### Per-continent splitters -/

/-- The per-continent selection and cleanup of `continent_to_capitals()`:
records whose country is in the continent's list and whose city is non-empty
(Python truthiness of the string), then `fprint` applied to every key and
value of each record (on the fixed keys "country"/"city" `fprint` is the
identity, so only the two field values change). -/
def capSelect (countries : List String) (caps : List CapRec) : List CapRec :=
  (caps.filter (fun c =>
    decide (c.country ∈ countries) && decide (c.city ≠ ""))).map
    (fun c => CapRec.mk (fprint c.country) (fprint c.city))

/-- The file writes of `continent_to_capitals()`: one
`<mangled continent>_capitals.json` per continent whose selection is
nonempty; empty selections are skipped (`continue`). -/
def capWrites (conts : List (String × List String)) (caps : List CapRec) :
    List (String × List CapRec) :=
  conts.filterMap (fun e =>
    let cs := capSelect e.2 caps
    if cs.isEmpty then none else some (mangle e.1, cs))

/-- The file writes of `continent_to_areas()`: areas are first filtered
globally by `area > min_area` with `min_area = 1000`, then joined per
continent; empty selections are skipped. -/
def areaWrites (conts : List (String × List String)) (areas : List AreaRec) :
    List (String × List AreaRec) :=
  let big := areas.filter (fun a => decide (1000 < a.area))
  conts.filterMap (fun e =>
    let ca := big.filter (fun a => decide (a.country ∈ e.2))
    if ca.isEmpty then none else some (mangle e.1, ca))

/-- The file writes of `continent_to_population()`: one
`<mangled continent>_populations.json` for every continent, with the joined
records; there is no empty-selection skip in this function. -/
def popWrites (conts : List (String × List String)) (pops : List PopRec) :
    List (String × List PopRec) :=
  conts.map (fun e =>
    (mangle e.1, pops.filter (fun p => decide (p.country ∈ e.2))))

/-! ### Population importer -/

/-- One pass of the CSV loop of `population_json`: `line[3]` / `line[4]`
(raising `IndexError` on short rows), comma removal, `int(...)` (raising
`ValueError`), scaling by 1000, and the keyed store under the stripped
country name. -/
def buildPop : List (String × Int) → List (List String) →
    Except String (List (String × Int))
  | m, [] => .ok m
  | m, line :: rest =>
    match getElem? line 3 with
    | none => .error "IndexError"
    | some country =>
      match getElem? line 4 with
      | none => .error "IndexError"
      | some pop =>
        match pyInt (removeCommas pop) with
        | none => .error ("ValueError: " ++ pop)
        | some v => buildPop (write m (pyStrip country) (v * 1000)) rest

/-- The 34 hardcoded country renames of `population_json`, in program
order. -/
def renames : List (String × String) :=
  [("Egypt, Arab Rep.", "Egypt"),
   ("Congo, Dem. Rep.", "The Democratic Repuplic of Congo"),
   ("Viet Nam", "Vietnam"),
   ("Iran, Islamic Rep.", "Iran"),
   ("Türkiye", "Turkey"),
   ("Korea, Rep.", "South Korea"),
   ("Yemen, Rep.", "Yemen"),
   ("Venezuela, RB", "Venezuela"),
   ("Côte d'Ivoire", "Ivory Coast"),
   ("Korea, Dem. People's Rep.", "North Korea"),
   ("Syrian Arab Republic", "Syria"),
   ("Lao PDR", "Laos"),
   ("Hong Kong SAR, China", "Hong Kong"),
   ("Kyrgyz Republic", "Kyrgyzstan"),
   ("Libya", "Libyan Arab Jamahiriya"),
   ("Congo, Rep.", "Congo"),
   ("Slovak Republic", "Slovakia"),
   ("West Bank and Gaza", "Palestine"),
   ("Gambia, The", "Gambia"),
   ("Timor-Leste", "East Timor"),
   ("Eswatini", "Swaziland"),
   ("Fiji", "Fiji Islands"),
   ("Macao SAR, China", "Macao"),
   ("Cabo Verde", "Cape Verde"),
   ("Brunei Darussalam", "Brunei"),
   ("Bahamas, The", "Bahamas"),
   ("São Tomé and Principe", "Sao Tome and Principe"),
   ("St. Lucia", "Saint Lucia"),
   ("Curaçao", "Netherlands Antilles"),
   ("Micronesia, Fed. Sts.", "Micronesia, Federated States of"),
   ("Virgin Islands (U.S.)", "Virgin Islands, U.S."),
   ("St. Vincent and the Grenadines", "Saint Vincent and the Grenadines"),
   ("St. Kitts and Nevis", "Saint Kitts and Nevis"),
   ("British Virgin Islands", "Virgin Islands, British")]

/-- The `rename` helper: `obj = d[key1]` (raising `KeyError` when the key
is absent, modelled as `Except.error key1`), `del d[key1]`,
`d[key2] = obj`. -/
def renameD (m : List (String × Int)) (k1 k2 : String) :
    Except String (List (String × Int)) :=
  match lookupD m k1 with
  | none => .error k1
  | some v => .ok (write (eraseK m k1) k2 v)

/-- The rename loop `for a, b in renames: rename(populations, a, b)`. -/
def applyRenames : List (String × String) → List (String × Int) →
    Except String (List (String × Int))
  | [], m => .ok m
  | (a, b) :: rest, m =>
    match renameD m a b with
    | .error k => .error k
    | .ok m2 => applyRenames rest m2

/-- The `population_json()` computation of `country_population.json` from the
parsed CSV rows: build the keyed table, apply the renames (an error here is
the uncaught `KeyError`, raised before the output file is opened), then
convert to a record list. -/
def populationJson (rows : List (List String)) :
    Except String (List PopRec) :=
  match buildPop [] rows with
  | .error e => .error e
  | .ok m =>
    match applyRenames renames m with
    | .error k => .error k
    | .ok m2 => .ok (m2.map (fun e => PopRec.mk e.1 e.2))

/-! ### Question generators -/

/-- A `{question, answers}` item of a capitals question file. -/
structure CapItem where
  question : String
  answers : List String
deriving DecidableEq

/-- The `data` object of a capitals question set. -/
structure CapQData where
  question_prefix : String
  items : List CapItem
deriving DecidableEq

/-- A capitals `QuestionSet` as dumped to `questions/<c>_capitals.yaml`. -/
structure CapQuestions where
  name : String
  type_ : String
  data : CapQData
deriving DecidableEq

/-- A `{question, answer}` item of a numeric question file. -/
structure NumItem where
  question : String
  answer : Int
deriving DecidableEq

/-- The `data` object of a numeric question set (areas, populations). -/
structure NumQData where
  question_prefix : String
  items : List NumItem
  range : Rat
deriving DecidableEq

/-- A numeric `QuestionSet` as dumped to the areas/populations YAML files. -/
structure NumQuestions where
  name : String
  type_ : String
  data : NumQData
deriving DecidableEq

/-- Item ordering `items.sort(key=lambda x: x["question"])`. -/
def capItemLE (a b : CapItem) : Prop := a.question ≤ b.question

instance : DecidableRel capItemLE := fun a b =>
  inferInstanceAs (Decidable (a.question ≤ b.question))

instance : IsTotal CapItem capItemLE := ⟨fun a b => le_total a.question b.question⟩

instance : IsTrans CapItem capItemLE := ⟨fun _ _ _ h h' => le_trans h h'⟩

/-- Item ordering for numeric items. -/
def numItemLE (a b : NumItem) : Prop := a.question ≤ b.question

instance : DecidableRel numItemLE := fun a b =>
  inferInstanceAs (Decidable (a.question ≤ b.question))

instance : IsTotal NumItem numItemLE := ⟨fun a b => le_total a.question b.question⟩

instance : IsTrans NumItem numItemLE := ⟨fun _ _ _ h h' => le_trans h h'⟩

/-- The question set built by `continent_capitals_questions` for one
`<continent>_capitals.json` file. -/
def mkCapQuestions (continent : String) (data : List CapRec) : CapQuestions :=
  { name := continent ++ "_capitals", type_ := "default",
    data := { question_prefix := "What is the capital of ",
              items := List.insertionSort capItemLE
                (data.map (fun d => CapItem.mk d.country [d.city])) } }

/-- The question set built by `continent_area_questions` for one
`<continent>_areas.json` file (`int(d["area"])` on our integer model is the
identity). -/
def mkAreaQuestions (continent : String) (data : List AreaRec) : NumQuestions :=
  { name := continent ++ "_areas", type_ := "numeric_range",
    data := { question_prefix := "What is the area (km^2) of ",
              items := List.insertionSort numItemLE
                (data.map (fun d => NumItem.mk d.country d.area)),
              range := (0.025 : Rat) } }

/-- The question set built by `continent_population_questions` for one
`<continent>_populations.json` file. -/
def mkPopQuestions (continent : String) (data : List PopRec) : NumQuestions :=
  { name := continent ++ "_populations", type_ := "numeric_range",
    data := { question_prefix := "What is the population of ",
              items := List.insertionSort numItemLE
                (data.map (fun d => NumItem.mk d.country d.population)),
              range := (0.025 : Rat) } }

/-- The YAML writes of `continent_capitals_questions`: every directory entry
ending in `_capitals.json` (exactly the keys of the capitals file map; no
other file of the store matches that suffix) yields
`questions/<continent>_capitals.yaml`. -/
def capQuestionWrites (files : List (String × List CapRec)) :
    List (String × CapQuestions) :=
  files.map (fun e => (e.1, mkCapQuestions e.1 e.2))

/-- The YAML writes of `continent_area_questions`. -/
def areaQuestionWrites (files : List (String × List AreaRec)) :
    List (String × NumQuestions) :=
  files.map (fun e => (e.1, mkAreaQuestions e.1 e.2))

/-- The YAML writes of `continent_population_questions`. -/
def popQuestionWrites (files : List (String × List PopRec)) :
    List (String × NumQuestions) :=
  files.map (fun e => (e.1, mkPopQuestions e.1 e.2))

/-! ### The working directory and the three orchestrators -/

/-- The files of the working directory, as parsed values.  The three
per-continent file families have pairwise exclusive name suffixes
(`_capitals.json`, `_areas.json`, `_populations.json`), and none of the five
fixed file names matches any of the suffixes, so they are kept as separate
maps keyed by the mangled continent name (the file name minus the suffix).
The `questions/` directory is likewise split by fact type. -/
structure Store where
  country_continent : List CCRec
  country_capital : List CapRec
  country_area : List AreaRec
  world_population : List (List String)
  continent_to_country : List (String × List String)
  country_population : List PopRec
  capFiles : List (String × List CapRec)
  areaFiles : List (String × List AreaRec)
  popFiles : List (String × List PopRec)
  capQuestions : List (String × CapQuestions)
  areaQuestions : List (String × NumQuestions)
  popQuestions : List (String × NumQuestions)
deriving DecidableEq

/-- Well-formedness of a working directory: file names are distinct within
each file map (true of any real directory). -/
def WF (s : Store) : Prop :=
  (keys s.capFiles).Nodup ∧ (keys s.areaFiles).Nodup ∧
  (keys s.popFiles).Nodup ∧ (keys s.capQuestions).Nodup ∧
  (keys s.areaQuestions).Nodup ∧ (keys s.popQuestions).Nodup

instance : DecidablePred WF := fun s =>
  inferInstanceAs (Decidable ((keys s.capFiles).Nodup ∧ (keys s.areaFiles).Nodup ∧
    (keys s.popFiles).Nodup ∧ (keys s.capQuestions).Nodup ∧
    (keys s.areaQuestions).Nodup ∧ (keys s.popQuestions).Nodup))

/-- The orchestrator `gen_capital_questions()`: `continent_fixup`,
`split_by_continent`, `capital_fixup`, `continent_to_capitals`,
`continent_capitals_questions`. -/
def runCap (s : Store) : Store :=
  let cc := continentFixup s.country_continent
  let ctc := splitByContinent cc
  let cap := capitalFixup s.country_capital
  let cf := writeAll (capWrites ctc cap) s.capFiles
  let cq := writeAll (capQuestionWrites cf) s.capQuestions
  { s with country_continent := cc, continent_to_country := ctc,
           country_capital := cap, capFiles := cf, capQuestions := cq }

/-- The orchestrator `gen_area_questions()`. -/
def runArea (s : Store) : Store :=
  let cc := continentFixup s.country_continent
  let ctc := splitByContinent cc
  let af := writeAll (areaWrites ctc s.country_area) s.areaFiles
  let aq := writeAll (areaQuestionWrites af) s.areaQuestions
  { s with country_continent := cc, continent_to_country := ctc,
           areaFiles := af, areaQuestions := aq }

/-- The orchestrator `gen_population_questions()`.  When `population_json`
raises (missing rename key, malformed CSV), the run aborts after the
`continent_fixup` and `split_by_continent` writes, leaving
`country_population.json` and everything downstream untouched. -/
def runPop (s : Store) : Store :=
  let cc := continentFixup s.country_continent
  let ctc := splitByContinent cc
  let s1 := { s with country_continent := cc, continent_to_country := ctc }
  match populationJson s.world_population with
  | .error _ => s1
  | .ok pops =>
    let pf := writeAll (popWrites ctc pops) s.popFiles
    let pq := writeAll (popQuestionWrites pf) s.popQuestions
    { s1 with country_population := pops, popFiles := pf, popQuestions := pq }

/-- The whole script: the three top-level calls, in order. -/
def pipeline (s : Store) : Store :=
  runPop (runArea (runCap s))

/-- The capitals file map after one run of the script. -/
def capFilesAfter (s : Store) : List (String × List CapRec) :=
  writeAll (capWrites (splitByContinent (continentFixup s.country_continent))
    (capitalFixup s.country_capital)) s.capFiles

/-- The capitals question map after one run of the script. -/
def capQAfter (s : Store) : List (String × CapQuestions) :=
  writeAll (capQuestionWrites (capFilesAfter s)) s.capQuestions

/-- The areas file map after one run of the script. -/
def areaFilesAfter (s : Store) : List (String × List AreaRec) :=
  writeAll (areaWrites (splitByContinent (continentFixup s.country_continent))
    s.country_area) s.areaFiles

/-- The areas question map after one run of the script. -/
def areaQAfter (s : Store) : List (String × NumQuestions) :=
  writeAll (areaQuestionWrites (areaFilesAfter s)) s.areaQuestions

/-- The populations file map after one successful run of the script. -/
def popFilesAfter (s : Store) (pops : List PopRec) : List (String × List PopRec) :=
  writeAll (popWrites (splitByContinent (continentFixup s.country_continent)) pops)
    s.popFiles

/-- The populations question map after one successful run of the script. -/
def popQAfter (s : Store) (pops : List PopRec) : List (String × NumQuestions) :=
  writeAll (popQuestionWrites (popFilesAfter s pops)) s.popQuestions

/-- Characterization used in proofs: the countries recorded under continent
`c`, in input order. -/
def countriesOf (l : List CCRec) (c : String) : List String :=
  (l.filter (fun r => decide (r.continent = c))).map CCRec.country

/-! ### Lemmas about the dict operations -/

theorem lookup_write {β : Type} (m : List (String × β)) (k j : String) (v : β) :
    lookupD (write m k v) j = if k = j then some v else lookupD m j := by
  induction m with
  | nil => simp [write, lookupD]
  | cons e t ih =>
    by_cases he : e.1 = k
    · by_cases hkj : k = j
      · simp [write, lookupD, he, hkj]
      · have hej : e.1 ≠ j := fun h => hkj (he.symm.trans h)
        simp [write, lookupD, he, hkj, hej]
    · by_cases hej : e.1 = j
      · have hkj : k ≠ j := fun h => he (hej.trans h.symm)
        simp [write, lookupD, he, hej, hkj, Ne.symm hkj]
      · simp [write, lookupD, he, hej, ih]

theorem keys_cons {β : Type} (e : String × β) (t : List (String × β)) :
    keys (e :: t) = e.1 :: keys t := rfl

theorem keys_write {β : Type} (m : List (String × β)) (k : String) (v : β) :
    keys (write m k v) = if k ∈ keys m then keys m else keys m ++ [k] := by
  induction m with
  | nil => simp [write, keys]
  | cons e t ih =>
    by_cases he : e.1 = k
    · have hmem : k ∈ keys (e :: t) := by
        rw [keys_cons, he]
        exact List.mem_cons_self _ _
      have hw : write (e :: t) k v = (k, v) :: t := by simp [write, he]
      rw [if_pos hmem, hw, keys_cons, keys_cons, he]
    · have hke : k ≠ e.1 := fun h => he h.symm
      have hw : write (e :: t) k v = e :: write t k v := by simp [write, he]
      rw [hw, keys_cons, ih, keys_cons]
      by_cases hk : k ∈ keys t
      · rw [if_pos hk, if_pos (List.mem_cons_of_mem _ hk)]
      · have hnm : k ∉ e.1 :: keys t := by
          simp only [List.mem_cons, not_or]
          exact ⟨hke, hk⟩
        rw [if_neg hk, if_neg hnm]
        simp

theorem write_self {β : Type} (m : List (String × β)) (k : String) (v : β)
    (h : lookupD m k = some v) : write m k v = m := by
  induction m with
  | nil => simp [lookupD] at h
  | cons e t ih =>
    obtain ⟨a, b⟩ := e
    by_cases he : a = k
    · subst he
      simp only [lookupD, if_pos rfl] at h
      obtain rfl : b = v := Option.some.inj h
      simp [write]
    · simp only [lookupD, if_neg he] at h
      simp [write, he, ih h]

theorem lookup_eq_none {β : Type} (m : List (String × β)) (k : String) :
    lookupD m k = none ↔ k ∉ keys m := by
  induction m with
  | nil => simp [lookupD, keys]
  | cons e t ih =>
    by_cases he : e.1 = k
    · simp [lookupD, keys, he]
    · have hke : k ≠ e.1 := fun h => he h.symm
      simp [lookupD, keys, he, hke, ih]

theorem lookup_isSome_of_mem_keys {β : Type} (m : List (String × β)) (k : String)
    (h : k ∈ keys m) : ∃ v, lookupD m k = some v := by
  cases hl : lookupD m k with
  | none => exact absurd ((lookup_eq_none m k).mp hl) (not_not_intro h)
  | some v => exact ⟨v, rfl⟩

theorem mem_of_lookup {β : Type} (m : List (String × β)) (k : String) (v : β)
    (h : lookupD m k = some v) : (k, v) ∈ m := by
  induction m with
  | nil => simp [lookupD] at h
  | cons e t ih =>
    obtain ⟨a, b⟩ := e
    by_cases he : a = k
    · subst he
      simp only [lookupD, if_pos rfl] at h
      obtain rfl : b = v := Option.some.inj h
      exact List.mem_cons_self _ _
    · simp only [lookupD, if_neg he] at h
      exact List.mem_cons_of_mem _ (ih h)

theorem nodup_keys_write {β : Type} (m : List (String × β)) (k : String) (v : β)
    (h : (keys m).Nodup) : (keys (write m k v)).Nodup := by
  rw [keys_write]
  by_cases hk : k ∈ keys m
  · simpa [hk] using h
  · simp only [if_neg hk]
    simpa [List.nodup_append, hk] using h

theorem lookupD_append {β : Type} (a b : List (String × β)) (k : String) :
    lookupD (a ++ b) k = olu (lookupD a k) (lookupD b k) := by
  induction a with
  | nil => simp [lookupD, olu]
  | cons e t ih =>
    by_cases he : e.1 = k <;> simp [lookupD, he, olu, ih]

theorem lastVal_cons {β : Type} (e : String × β) (t : List (String × β)) (k : String) :
    lastVal (e :: t) k = olu (lastVal t k) (if e.1 = k then some e.2 else none) := by
  by_cases he : e.1 = k <;>
    simp [lastVal, List.reverse_cons, lookupD_append, lookupD, he]

theorem lastVal_eq_none {β : Type} (p : List (String × β)) (k : String) :
    lastVal p k = none ↔ k ∉ keys p := by
  rw [lastVal, lookup_eq_none]
  simp [keys]

theorem olu_assoc {β : Type} (a b c : Option β) :
    olu (olu a b) c = olu a (olu b c) := by
  cases a <;> cases b <;> simp [olu]

theorem olu_none {β : Type} (a : Option β) : olu a none = a := by
  cases a <;> simp [olu]

theorem olu_self {β : Type} (a b : Option β) : olu a (olu a b) = olu a b := by
  cases a <;> simp [olu]

theorem lookup_writeAll {β : Type} (p m : List (String × β)) (k : String) :
    lookupD (writeAll p m) k = olu (lastVal p k) (lookupD m k) := by
  induction p generalizing m with
  | nil => simp [writeAll, lastVal, lookupD, olu]
  | cons e t ih =>
    show lookupD (writeAll t (write m e.1 e.2)) k = _
    rw [ih, lookup_write, lastVal_cons, olu_assoc]
    congr 1
    by_cases he : e.1 = k <;> simp [he, olu]

theorem mem_keys_writeAll {β : Type} (p m : List (String × β)) (k : String)
    (h : k ∈ keys p) : k ∈ keys (writeAll p m) := by
  have h1 : lastVal p k ≠ none := fun hn => ((lastVal_eq_none p k).mp hn) h
  cases hv : lastVal p k with
  | none => exact absurd hv h1
  | some v =>
    have h2 : lookupD (writeAll p m) k = some v := by
      rw [lookup_writeAll, hv]
      rfl
    by_contra hmem
    rw [(lookup_eq_none _ _).mpr hmem] at h2
    cases h2

theorem keys_mem_of_writeAll {β : Type} (p m : List (String × β)) (k : String)
    (h : k ∈ keys (writeAll p m)) : k ∈ keys p ∨ k ∈ keys m := by
  by_contra hc
  push_neg at hc
  have h1 : lastVal p k = none := (lastVal_eq_none p k).mpr hc.1
  have h2 : lookupD m k = none := (lookup_eq_none m k).mpr hc.2
  have h3 : lookupD (writeAll p m) k = none := by
    rw [lookup_writeAll, h1, h2]
    rfl
  exact absurd ((lookup_eq_none _ _).mp h3) (not_not_intro h)

theorem keys_writeAll_of_mem {β : Type} (p m : List (String × β))
    (h : ∀ kv ∈ p, kv.1 ∈ keys m) : keys (writeAll p m) = keys m := by
  induction p generalizing m with
  | nil => rfl
  | cons e t ih =>
    show keys (writeAll t (write m e.1 e.2)) = keys m
    have he : e.1 ∈ keys m := h e (List.mem_cons_self e t)
    have hw : keys (write m e.1 e.2) = keys m := by rw [keys_write, if_pos he]
    rw [ih (write m e.1 e.2) (fun kv hkv => by
      rw [hw]; exact h kv (List.mem_cons_of_mem e hkv)), hw]

theorem nodup_keys_writeAll {β : Type} (p m : List (String × β))
    (h : (keys m).Nodup) : (keys (writeAll p m)).Nodup := by
  induction p generalizing m with
  | nil => exact h
  | cons e t ih => exact ih _ (nodup_keys_write m e.1 e.2 h)

theorem ext_nodup {β : Type} (m1 m2 : List (String × β))
    (hk : keys m1 = keys m2) (hn : (keys m1).Nodup)
    (hl : ∀ k, lookupD m1 k = lookupD m2 k) : m1 = m2 := by
  induction m1 generalizing m2 with
  | nil =>
    cases m2 with
    | nil => rfl
    | cons e t => simp [keys] at hk
  | cons e t ih =>
    cases m2 with
    | nil => simp [keys] at hk
    | cons e2 t2 =>
      obtain ⟨a, b⟩ := e
      obtain ⟨c, d⟩ := e2
      simp only [keys, List.map_cons, List.cons.injEq] at hk
      obtain ⟨hk1, hk2⟩ := hk
      subst hk1
      have h0 := hl a
      simp [lookupD] at h0
      subst h0
      simp only [keys, List.map_cons, List.nodup_cons] at hn
      have ht : t = t2 := by
        refine ih t2 hk2 hn.2 fun k => ?_
        by_cases hka : k = a
        · have hn2 : a ∉ List.map Prod.fst t2 := by
            rw [← hk2]
            exact hn.1
          rw [hka, (lookup_eq_none t a).mpr hn.1, (lookup_eq_none t2 a).mpr hn2]
        · have h1 := hl k
          have hak : a ≠ k := fun h => hka h.symm
          simpa only [lookupD, if_neg hak] using h1
      rw [ht]

theorem lookup_eraseK_ne {β : Type} (m : List (String × β)) (k j : String)
    (h : j ≠ k) : lookupD (eraseK m k) j = lookupD m j := by
  induction m with
  | nil => rfl
  | cons e t ih =>
    by_cases he : e.1 = k
    · have hej : e.1 ≠ j := fun hh => h (hh ▸ he)
      rw [eraseK, if_pos he]
      simp only [lookupD, if_neg hej]
    · rw [eraseK, if_neg he]
      simp only [lookupD]
      by_cases hej : e.1 = j
      · rw [if_pos hej, if_pos hej]
      · rw [if_neg hej, if_neg hej, ih]

theorem keys_eraseK_sublist {β : Type} (m : List (String × β)) (k : String) :
    (keys (eraseK m k)).Sublist (keys m) := by
  induction m with
  | nil => simp [eraseK, keys]
  | cons e t ih =>
    by_cases he : e.1 = k
    · simp only [eraseK, if_pos he, keys_cons]
      exact (List.sublist_cons_self _ _).trans (List.Sublist.refl _) |>.trans
        (List.Sublist.refl _)
    · simp only [eraseK, if_neg he, keys_cons]
      exact ih.cons₂ _

theorem nodup_keys_eraseK {β : Type} (m : List (String × β)) (k : String)
    (h : (keys m).Nodup) : (keys (eraseK m k)).Nodup :=
  (keys_eraseK_sublist m k).nodup h

theorem lookup_eraseK_self {β : Type} (m : List (String × β)) (k : String)
    (h : (keys m).Nodup) : lookupD (eraseK m k) k = none := by
  induction m with
  | nil => rfl
  | cons e t ih =>
    simp only [keys_cons, List.nodup_cons] at h
    by_cases he : e.1 = k
    · rw [eraseK, if_pos he]
      exact (lookup_eq_none t k).mpr (he ▸ h.1)
    · rw [eraseK, if_neg he]
      simp only [lookupD, if_neg he]
      exact ih h.2

theorem eraseK_of_not_mem {β : Type} (m : List (String × β)) (k : String)
    (h : k ∉ keys m) : eraseK m k = m := by
  induction m with
  | nil => rfl
  | cons e t ih =>
    simp only [keys_cons, List.mem_cons, not_or] at h
    rw [eraseK, if_neg (fun he => h.1 he.symm), ih h.2]

theorem write_append {β : Type} (m : List (String × β)) (k : String) (v : β)
    (h : k ∉ keys m) : write m k v = m ++ [(k, v)] := by
  induction m with
  | nil => rfl
  | cons e t ih =>
    simp only [keys_cons, List.mem_cons, not_or] at h
    rw [write, if_neg (fun he => h.1 he.symm), ih h.2]
    rfl

theorem writeAll_disjoint {β : Type} (p m : List (String × β))
    (hp : (keys p).Nodup) (hd : ∀ k ∈ keys p, k ∉ keys m) :
    writeAll p m = m ++ p := by
  induction p generalizing m with
  | nil => simp [writeAll]
  | cons e t ih =>
    obtain ⟨a, b⟩ := e
    simp only [keys_cons, List.nodup_cons] at hp
    show writeAll t (write m a b) = m ++ (a, b) :: t
    have ha : a ∉ keys m := hd a (by rw [keys_cons]; exact List.mem_cons_self _ _)
    have hdisj : ∀ k ∈ keys t, k ∉ keys (m ++ [(a, b)]) := by
      intro k hk
      have h1 : k ∉ keys m := hd k (by rw [keys_cons]; exact List.mem_cons_of_mem _ hk)
      have h2 : k ≠ a := fun hka => hp.1 (hka ▸ hk)
      have hkeys : keys (m ++ [(a, b)]) = keys m ++ [a] := by simp [keys]
      rw [hkeys]
      simp only [List.mem_append, List.mem_singleton, not_or]
      exact ⟨h1, h2⟩
    rw [write_append m a b ha, ih (m ++ [(a, b)]) hp.2 hdisj, List.append_assoc]
    rfl

theorem writeAll_noop {β : Type} (p m : List (String × β))
    (h : ∀ kv ∈ p, lookupD m kv.1 = some kv.2) : writeAll p m = m := by
  induction p with
  | nil => rfl
  | cons e t ih =>
    show writeAll t (write m e.1 e.2) = m
    rw [write_self m e.1 e.2 (h e (List.mem_cons_self e t))]
    exact ih fun kv hkv => h kv (List.mem_cons_of_mem e hkv)

theorem filter_key_nil {β : Type} (m : List (String × β)) (k : String)
    (h : k ∉ keys m) : m.filter (fun e => decide (e.1 = k)) = [] := by
  induction m with
  | nil => rfl
  | cons e t ih =>
    simp only [keys_cons, List.mem_cons, not_or] at h
    rw [List.filter_cons_of_neg (by simp; exact fun he => h.1 he.symm), ih h.2]

theorem filter_key_singleton {β : Type} (m : List (String × β)) (k : String) (v : β)
    (hn : (keys m).Nodup) (h : lookupD m k = some v) :
    m.filter (fun e => decide (e.1 = k)) = [(k, v)] := by
  induction m with
  | nil => simp [lookupD] at h
  | cons e t ih =>
    obtain ⟨a, b⟩ := e
    simp only [keys_cons, List.nodup_cons] at hn
    by_cases he : a = k
    · subst he
      simp only [lookupD, if_pos rfl] at h
      obtain rfl : b = v := Option.some.inj h
      rw [List.filter_cons_of_pos (by simp), filter_key_nil t a hn.1]
    · simp only [lookupD, if_neg he] at h
      rw [List.filter_cons_of_neg (by simp [he]), ih hn.2 h]

theorem lookup_of_mem_nodup {β : Type} (m : List (String × β)) (k : String) (v : β)
    (hn : (keys m).Nodup) (h : (k, v) ∈ m) : lookupD m k = some v := by
  induction m with
  | nil => simp at h
  | cons e t ih =>
    simp only [keys_cons, List.nodup_cons] at hn
    rcases List.mem_cons.mp h with h1 | h1
    · rw [← h1]
      simp [lookupD]
    · have hk : k ∈ keys t := List.mem_map_of_mem Prod.fst h1
      have he : e.1 ≠ k := fun hh => hn.1 (hh ▸ hk)
      simp only [lookupD, if_neg he]
      exact ih hn.2 h1

theorem lookup_perm_nodup {β : Type} (m1 m2 : List (String × β)) (k : String)
    (h : m1.Perm m2) (hn : (keys m1).Nodup) : lookupD m1 k = lookupD m2 k := by
  have hkeys : (keys m1).Perm (keys m2) := h.map Prod.fst
  cases hv : lookupD m1 k with
  | none =>
    have : k ∉ keys m2 := fun hm =>
      ((lookup_eq_none m1 k).mp hv) (hkeys.mem_iff.mpr hm)
    exact ((lookup_eq_none m2 k).mpr this).symm
  | some v =>
    have hmem : (k, v) ∈ m2 := h.mem_iff.mp (mem_of_lookup m1 k v hv)
    exact (lookup_of_mem_nodup m2 k v (hkeys.nodup_iff.mp hn) hmem).symm

theorem map_fixed {α : Type} (f : α → α) (l : List α)
    (h : ∀ x ∈ l, f x = x) : l.map f = l := by
  induction l with
  | nil => rfl
  | cons e t ih =>
    rw [List.map_cons, h e (List.mem_cons_self e t),
      ih fun x hx => h x (List.mem_cons_of_mem e hx)]

theorem writeAll_idem {β : Type} (p m : List (String × β))
    (h : (keys m).Nodup) : writeAll p (writeAll p m) = writeAll p m := by
  refine ext_nodup _ _ ?_ ?_ ?_
  · refine keys_writeAll_of_mem _ _ fun kv hkv => ?_
    exact mem_keys_writeAll p m kv.1 (List.mem_map_of_mem Prod.fst hkv)
  · exact nodup_keys_writeAll _ _ (nodup_keys_writeAll _ _ h)
  · intro k
    rw [lookup_writeAll, lookup_writeAll]
    exact olu_self _ _

/-! ### Idempotence of the two in-place fixups -/

theorem renameCC_fixed (r : CCRec) : renameCC (renameCC r) = renameCC r := by
  have hvc : ¬ ("Vatican City" = holySee) := by decide
  by_cases h : r.country = holySee <;> simp [renameCC, h, hvc]

theorem continentFixup_idem (l : List CCRec) :
    continentFixup (continentFixup l) = continentFixup l := by
  unfold continentFixup
  have h1 : (List.insertionSort ccLE (l.map renameCC)).map renameCC
      = List.insertionSort ccLE (l.map renameCC) := by
    refine map_fixed _ _ fun x hx => ?_
    rcases List.mem_map.mp ((List.mem_insertionSort ccLE).mp hx) with ⟨y, _, rfl⟩
    exact renameCC_fixed y
  rw [h1, List.Sorted.insertionSort_eq (List.sorted_insertionSort ccLE (l.map renameCC))]

theorem nodup_keys_fromRecs (l : List CapRec) : (keys (fromRecs l)).Nodup :=
  nodup_keys_writeAll _ [] (by simp [keys])

theorem nodup_keys_applyOverrides (m : List (String × String))
    (h : (keys m).Nodup) : (keys (applyOverrides m)).Nodup :=
  nodup_keys_writeAll _ _ (nodup_keys_eraseK _ _ (nodup_keys_writeAll _ _ h))

theorem lookup_applyOverrides_mem (m : List (String × String))
    (kv : String × String) (h : kv ∈ overridePairs) :
    lookupD (applyOverrides m) kv.1 = some kv.2 := by
  rcases List.mem_append.mp h with hA | hB
  · have hlvB : lastVal overridesB kv.1 = none := by
      have : ∀ x ∈ overridesA, lastVal overridesB x.1 = none := by decide
      exact this kv hA
    have hhs : kv.1 ≠ holySee := by
      have : ∀ x ∈ overridesA, x.1 ≠ holySee := by decide
      exact this kv hA
    have hlvA : lastVal overridesA kv.1 = some kv.2 := by
      have : ∀ x ∈ overridesA, lastVal overridesA x.1 = some x.2 := by decide
      exact this kv hA
    rw [applyOverrides, lookup_writeAll, hlvB, lookup_eraseK_ne _ _ _ hhs,
      lookup_writeAll, hlvA]
    rfl
  · have hlvB : lastVal overridesB kv.1 = some kv.2 := by
      have : ∀ x ∈ overridesB, lastVal overridesB x.1 = some x.2 := by decide
      exact this kv hB
    rw [applyOverrides, lookup_writeAll, hlvB]
    rfl

theorem lookup_applyOverrides_other (m : List (String × String)) (k : String)
    (hk : k ∉ keys overridePairs) (hhs : k ≠ holySee) :
    lookupD (applyOverrides m) k = lookupD m k := by
  have hkA : k ∉ keys overridesA := fun h =>
    hk (by simp only [overridePairs, keys, List.map_append, List.mem_append]; exact Or.inl h)
  have hkB : k ∉ keys overridesB := fun h =>
    hk (by simp only [overridePairs, keys, List.map_append, List.mem_append]; exact Or.inr h)
  rw [applyOverrides, lookup_writeAll, (lastVal_eq_none _ _).mpr hkB,
    lookup_eraseK_ne _ _ _ hhs, lookup_writeAll, (lastVal_eq_none _ _).mpr hkA]
  rfl

theorem lookup_applyOverrides_holySee (m : List (String × String))
    (h : (keys m).Nodup) : lookupD (applyOverrides m) holySee = none := by
  have hkB : holySee ∉ keys overridesB := by decide
  rw [applyOverrides, lookup_writeAll, (lastVal_eq_none _ _).mpr hkB,
    lookup_eraseK_self _ _ (nodup_keys_writeAll _ _ h)]
  rfl

theorem toRecs_pairs (S : List CapRec) :
    toRecs (S.map (fun c => (c.country, c.city))) = S := by
  rw [toRecs, List.map_map]
  exact map_fixed _ _ fun x _ => rfl

theorem keys_pairs (S : List CapRec) :
    keys (S.map (fun c => (c.country, c.city))) = S.map CapRec.country := by
  rw [keys, List.map_map]
  rfl

theorem fromRecs_pairs (X : List CapRec)
    (hp : (keys (X.map (fun c => (c.country, c.city)))).Nodup) :
    fromRecs X = X.map (fun c => (c.country, c.city)) := by
  have hw := writeAll_disjoint (X.map (fun c => (c.country, c.city))) [] hp
    (fun k _ h => List.not_mem_nil k h)
  rw [List.nil_append] at hw
  rw [fromRecs]
  exact hw

theorem applyOverrides_fixed (M : List (String × String))
    (hover : ∀ kv ∈ overridePairs, lookupD M kv.1 = some kv.2)
    (hhs : holySee ∉ keys M) : applyOverrides M = M := by
  rw [applyOverrides,
    writeAll_noop overridesA M
      (fun kv hkv => hover kv (List.mem_append.mpr (Or.inl hkv))),
    eraseK_of_not_mem M holySee hhs,
    writeAll_noop overridesB M
      (fun kv hkv => hover kv (List.mem_append.mpr (Or.inr hkv)))]

theorem capitalFixup_fixed (X : List CapRec)
    (hp : (keys (X.map (fun c => (c.country, c.city)))).Nodup)
    (hsorted : List.Sorted capLE X)
    (hover : ∀ kv ∈ overridePairs,
      lookupD (X.map (fun c => (c.country, c.city))) kv.1 = some kv.2)
    (hhs : holySee ∉ keys (X.map (fun c => (c.country, c.city)))) :
    capitalFixup X = X := by
  calc capitalFixup X
      = List.insertionSort capLE (toRecs (applyOverrides (fromRecs X))) := rfl
    _ = X := by
        rw [fromRecs_pairs X hp, applyOverrides_fixed _ hover hhs, toRecs_pairs,
          hsorted.insertionSort_eq]

theorem capitalFixup_idem (l : List CapRec) :
    capitalFixup (capitalFixup l) = capitalFixup l := by
  have hD : (keys (applyOverrides (fromRecs l))).Nodup :=
    nodup_keys_applyOverrides _ (nodup_keys_fromRecs l)
  have h1 : (capitalFixup l).Perm (toRecs (applyOverrides (fromRecs l))) :=
    List.perm_insertionSort capLE _
  have h2 : ((toRecs (applyOverrides (fromRecs l))).map (fun c => (c.country, c.city)))
      = applyOverrides (fromRecs l) := by
    rw [toRecs, List.map_map]
    exact map_fixed _ _ fun x _ => rfl
  have hperm : ((capitalFixup l).map (fun c => (c.country, c.city))).Perm
      (applyOverrides (fromRecs l)) := by
    have h3 := h1.map (fun c => (c.country, c.city))
    rw [h2] at h3
    exact h3
  have hpairsNodup : (keys ((capitalFixup l).map (fun c => (c.country, c.city)))).Nodup :=
    (hperm.map Prod.fst).nodup_iff.mpr hD
  have hlook : ∀ k, lookupD ((capitalFixup l).map (fun c => (c.country, c.city))) k
      = lookupD (applyOverrides (fromRecs l)) k :=
    fun k => lookup_perm_nodup _ _ k hperm hpairsNodup
  refine capitalFixup_fixed (capitalFixup l) hpairsNodup
    (List.sorted_insertionSort capLE _) ?_ ?_
  · intro kv hkv
    rw [hlook kv.1]
    exact lookup_applyOverrides_mem (fromRecs l) kv hkv
  · intro hm
    rcases lookup_isSome_of_mem_keys _ _ hm with ⟨v, hv⟩
    rw [hlook holySee, lookup_applyOverrides_holySee _ (nodup_keys_fromRecs l)] at hv
    cases hv

/-! ### Lemmas about grouping by continent -/

theorem lookup_appendAt (m : List (String × List String)) (k x j : String) :
    lookupD (appendAt m k x) j
      = if k = j then some (((lookupD m k).getD []) ++ [x]) else lookupD m j := by
  induction m with
  | nil =>
    by_cases h : k = j <;> simp [appendAt, lookupD, h]
  | cons e t ih =>
    by_cases he : e.1 = k
    · by_cases hkj : k = j
      · simp [appendAt, lookupD, he, hkj]
      · have hej : e.1 ≠ j := fun h => hkj (he.symm.trans h)
        simp [appendAt, lookupD, he, hkj, hej]
    · by_cases hej : e.1 = j
      · have hkj : k ≠ j := fun h => he (hej.trans h.symm)
        simp [appendAt, lookupD, he, hej, hkj, Ne.symm hkj]
      · by_cases hkj : k = j
        · subst hkj
          simp [appendAt, lookupD, he, hej, ih]
        · simp [appendAt, lookupD, he, hej, hkj, ih]

theorem keys_appendAt (m : List (String × List String)) (k x : String) :
    keys (appendAt m k x) = if k ∈ keys m then keys m else keys m ++ [k] := by
  induction m with
  | nil => simp [appendAt, keys]
  | cons e t ih =>
    by_cases he : e.1 = k
    · have hmem : k ∈ keys (e :: t) := by
        rw [keys_cons, he]
        exact List.mem_cons_self _ _
      have hw : appendAt (e :: t) k x = (e.1, e.2 ++ [x]) :: t := by simp [appendAt, he]
      rw [if_pos hmem, hw, keys_cons, keys_cons]
    · have hke : k ≠ e.1 := fun h => he h.symm
      have hw : appendAt (e :: t) k x = e :: appendAt t k x := by simp [appendAt, he]
      rw [hw, keys_cons, ih, keys_cons]
      by_cases hk : k ∈ keys t
      · rw [if_pos hk, if_pos (List.mem_cons_of_mem _ hk)]
      · have hnm : k ∉ e.1 :: keys t := by
          simp only [List.mem_cons, not_or]
          exact ⟨hke, hk⟩
        rw [if_neg hk, if_neg hnm]
        simp

theorem nodup_keys_appendAt (m : List (String × List String)) (k x : String)
    (h : (keys m).Nodup) : (keys (appendAt m k x)).Nodup := by
  rw [keys_appendAt]
  by_cases hk : k ∈ keys m
  · simpa [hk] using h
  · simp only [if_neg hk]
    simpa [List.nodup_append, hk] using h

theorem countriesOf_cons (r : CCRec) (t : List CCRec) (c : String) :
    countriesOf (r :: t) c
      = if r.continent = c then r.country :: countriesOf t c else countriesOf t c := by
  by_cases h : r.continent = c <;> simp [countriesOf, List.filter_cons, h]

theorem group_lookup (l : List CCRec) (acc : List (String × List String)) (c : String) :
    lookupD (l.foldl (fun m r => appendAt m r.continent r.country) acc) c
      = if c ∈ l.map CCRec.continent ∨ (lookupD acc c).isSome
        then some (((lookupD acc c).getD []) ++ countriesOf l c)
        else none := by
  induction l generalizing acc with
  | nil =>
    cases h : lookupD acc c <;> simp [countriesOf, h]
  | cons r t ih =>
    show lookupD (t.foldl _ (appendAt acc r.continent r.country)) c = _
    rw [ih (appendAt acc r.continent r.country), lookup_appendAt]
    by_cases hc : r.continent = c
    · rw [if_pos hc]
      have hmem : c ∈ (r :: t).map CCRec.continent := by
        simp [← hc]
      rw [if_pos (Or.inr (by simp)), if_pos (Or.inl hmem), countriesOf_cons, if_pos hc]
      simp [hc]
    · rw [if_neg hc]
      have hiff : (c ∈ (r :: t).map CCRec.continent ∨ (lookupD acc c).isSome)
          ↔ (c ∈ t.map CCRec.continent ∨ (lookupD acc c).isSome) := by
        simp only [List.map_cons, List.mem_cons]
        constructor
        · rintro ((h1 | h1) | h1)
          · exact absurd h1.symm hc
          · exact Or.inl h1
          · exact Or.inr h1
        · rintro (h1 | h1)
          · exact Or.inl (Or.inr h1)
          · exact Or.inr h1
      rw [countriesOf_cons, if_neg hc]
      by_cases hd : c ∈ t.map CCRec.continent ∨ (lookupD acc c).isSome
      · rw [if_pos hd, if_pos (hiff.mpr hd)]
      · rw [if_neg hd, if_neg (fun hh => hd (hiff.mp hh))]

theorem nodup_keys_group (l : List CCRec) (acc : List (String × List String))
    (h : (keys acc).Nodup) :
    (keys (l.foldl (fun m r => appendAt m r.continent r.country) acc)).Nodup := by
  induction l generalizing acc with
  | nil => exact h
  | cons r t ih => exact ih _ (nodup_keys_appendAt _ _ _ h)

theorem nodup_keys_groupByContinent (l : List CCRec) :
    (keys (groupByContinent l)).Nodup :=
  nodup_keys_group l [] (by simp [keys])

theorem lookup_mapValues {β γ : Type} (m : List (String × β)) (f : β → γ) (k : String) :
    lookupD (m.map (fun e => (e.1, f e.2))) k = (lookupD m k).map f := by
  induction m with
  | nil => simp [lookupD]
  | cons e t ih =>
    by_cases he : e.1 = k <;> simp [lookupD, he, ih]

theorem keys_mapValues {β γ : Type} (m : List (String × β)) (f : β → γ) :
    keys (m.map (fun e => (e.1, f e.2))) = keys m := by
  simp [keys, List.map_map]

theorem split_lookup (l : List CCRec) (c : String) :
    lookupD (splitByContinent l) c
      = if c ∈ l.map CCRec.continent
        then some (List.insertionSort strLE (countriesOf l c))
        else none := by
  rw [splitByContinent, lookup_mapValues, groupByContinent, group_lookup]
  simp only [lookupD]
  by_cases h : c ∈ l.map CCRec.continent <;> simp [h]

theorem nodup_keys_splitByContinent (l : List CCRec) :
    (keys (splitByContinent l)).Nodup := by
  rw [splitByContinent, keys_mapValues]
  exact nodup_keys_groupByContinent l

theorem mem_countriesOf (l : List CCRec) (c x : String) :
    x ∈ countriesOf l c ↔ ∃ r ∈ l, r.continent = c ∧ r.country = x := by
  simp only [countriesOf, List.mem_map, List.mem_filter, decide_eq_true_eq]
  constructor
  · rintro ⟨r, ⟨hr, hc⟩, hx⟩
    exact ⟨r, hr, hc, hx⟩
  · rintro ⟨r, hr, hc, hx⟩
    exact ⟨r, ⟨hr, hc⟩, hx⟩

theorem nodup_countriesOf (l : List CCRec) (c : String)
    (h : (l.map CCRec.country).Nodup) : (countriesOf l c).Nodup := by
  have hsub : (countriesOf l c).Sublist (l.map CCRec.country) :=
    (List.filter_sublist l).map CCRec.country
  exact hsub.nodup h

/-! ### Lemmas about the per-continent write lists -/

theorem mem_keys_filterMap {α β : Type} (step : α → Option (String × β))
    (l : List α) (k : String) (h : k ∈ keys (l.filterMap step)) :
    ∃ b ∈ l, ∃ v, step b = some (k, v) := by
  induction l with
  | nil => simp [keys] at h
  | cons x t ih =>
    cases hs : step x with
    | none =>
      rw [List.filterMap_cons_none hs] at h
      rcases ih h with ⟨b, hb, v, hv⟩
      exact ⟨b, List.mem_cons_of_mem x hb, v, hv⟩
    | some kv =>
      rw [List.filterMap_cons_some hs, keys_cons] at h
      rcases List.mem_cons.mp h with h1 | h1
      · refine ⟨x, List.mem_cons_self x t, kv.2, ?_⟩
        rw [hs, h1]
      · rcases ih h1 with ⟨b, hb, v, hv⟩
        exact ⟨b, List.mem_cons_of_mem x hb, v, hv⟩

theorem lookup_filterMap_unique {α β : Type} (step : α → Option (String × β))
    (g : α → String) (hg : ∀ x kv, step x = some kv → kv.1 = g x)
    (l : List α) (a : α) (ha : a ∈ l) (hu : ∀ b ∈ l, g b = g a → b = a) :
    lookupD (l.filterMap step) (g a) = (step a).map Prod.snd := by
  induction l with
  | nil => simp at ha
  | cons x t ih =>
    by_cases hgx : g x = g a
    · have hxa : x = a := hu x (List.mem_cons_self x t) hgx
      subst hxa
      cases hs : step x with
      | none =>
        rw [List.filterMap_cons_none hs]
        simp only [Option.map_none']
        rw [(lookup_eq_none _ _).mpr]
        intro hmem
        rcases mem_keys_filterMap step t (g x) hmem with ⟨b, hb, v, hv⟩
        have hgb : g b = g x := (hg b (g x, v) hv).symm ▸ rfl
        have : b = x := hu b (List.mem_cons_of_mem x hb) hgb
        rw [this, hs] at hv
        cases hv
      | some kv =>
        rw [List.filterMap_cons_some hs]
        have hk : kv.1 = g x := hg x kv hs
        simp only [lookupD, if_pos hk, hs, Option.map_some']
    · have hat : a ∈ t := by
        rcases List.mem_cons.mp ha with h1 | h1
        · exact absurd (h1 ▸ rfl : g x = g a) hgx
        · exact h1
      have hut : ∀ b ∈ t, g b = g a → b = a :=
        fun b hb => hu b (List.mem_cons_of_mem x hb)
      cases hs : step x with
      | none =>
        rw [List.filterMap_cons_none hs]
        exact ih hat hut
      | some kv =>
        rw [List.filterMap_cons_some hs]
        have hk : kv.1 = g x := hg x kv hs
        have hne : kv.1 ≠ g a := hk ▸ hgx
        simp only [lookupD, if_neg hne]
        exact ih hat hut

theorem lastVal_filterMap_unique {α β : Type} (step : α → Option (String × β))
    (g : α → String) (hg : ∀ x kv, step x = some kv → kv.1 = g x)
    (l : List α) (a : α) (ha : a ∈ l) (hu : ∀ b ∈ l, g b = g a → b = a) :
    lastVal (l.filterMap step) (g a) = (step a).map Prod.snd := by
  rw [lastVal, ← List.filterMap_reverse]
  exact lookup_filterMap_unique step g hg l.reverse a (List.mem_reverse.mpr ha)
    (fun b hb => hu b (List.mem_reverse.mp hb))

theorem lastVal_map_unique {α β : Type} (g : α → String) (f : α → β)
    (l : List α) (a : α) (ha : a ∈ l) (hu : ∀ b ∈ l, g b = g a → b = a) :
    lastVal (l.map (fun x => (g x, f x))) (g a) = some (f a) := by
  have h := lastVal_filterMap_unique (fun x => some (g x, f x)) g
    (fun x kv hkv => by
      cases hkv
      rfl) l a ha hu
  rw [show l.filterMap (fun x => some (g x, f x)) = l.map (fun x => (g x, f x)) from
    List.filterMap_eq_map (fun x => (g x, f x)) ▸ rfl] at h
  exact h

/-! ### Characterization of the records produced by capital_fixup -/

theorem filter_toRecs (m : List (String × String)) (k : String) :
    (toRecs m).filter (fun r => decide (r.country = k))
      = (m.filter (fun e => decide (e.1 = k))).map (fun e => CapRec.mk e.1 e.2) := by
  induction m with
  | nil => rfl
  | cons e t ih =>
    by_cases he : e.1 = k <;>
      simp [toRecs, List.filter_cons, he, ih] <;>
      simpa [toRecs] using ih

theorem capitalFixup_filter_singleton (l : List CapRec) (k v : String)
    (h : lookupD (applyOverrides (fromRecs l)) k = some v) :
    (capitalFixup l).filter (fun r => decide (r.country = k)) = [CapRec.mk k v] := by
  have hD : (keys (applyOverrides (fromRecs l))).Nodup :=
    nodup_keys_applyOverrides _ (nodup_keys_fromRecs l)
  have hfd : (applyOverrides (fromRecs l)).filter (fun e => decide (e.1 = k))
      = [(k, v)] := filter_key_singleton _ k v hD h
  have hft : (toRecs (applyOverrides (fromRecs l))).filter
      (fun r => decide (r.country = k)) = [CapRec.mk k v] := by
    rw [filter_toRecs, hfd]
    rfl
  have hp : ((capitalFixup l).filter (fun r => decide (r.country = k))).Perm
      [CapRec.mk k v] := by
    rw [← hft]
    exact (List.perm_insertionSort capLE _).filter _
  exact List.perm_singleton.mp hp

theorem capitalFixup_no_holySee (l : List CapRec) (r : CapRec)
    (hr : r ∈ capitalFixup l) : r.country ≠ holySee := by
  intro hcountry
  have hmem : r ∈ toRecs (applyOverrides (fromRecs l)) :=
    (List.mem_insertionSort capLE).mp hr
  rcases List.mem_map.mp hmem with ⟨e, he, hre⟩
  have hk : holySee ∈ keys (applyOverrides (fromRecs l)) := by
    rw [← hcountry, ← hre]
    exact List.mem_map_of_mem Prod.fst he
  rcases lookup_isSome_of_mem_keys _ _ hk with ⟨w, hw⟩
  rw [lookup_applyOverrides_holySee _ (nodup_keys_fromRecs l)] at hw
  cases hw

theorem lookup_pairs_find (X : List CapRec) (k : String) :
    lookupD (X.map (fun c => (c.country, c.city))) k
      = (X.find? (fun r => decide (r.country = k))).map CapRec.city := by
  induction X with
  | nil => rfl
  | cons r t ih =>
    by_cases hr : r.country = k <;> simp [lookupD, List.find?_cons, hr, ih]

theorem lookup_fromRecs (l : List CapRec) (k : String) :
    lookupD (fromRecs l) k
      = (l.reverse.find? (fun r => decide (r.country = k))).map CapRec.city := by
  rw [fromRecs, lookup_writeAll, lastVal, ← List.map_reverse, lookup_pairs_find]
  cases h : l.reverse.find? (fun r => decide (r.country = k)) <;>
    simp [olu, lookupD, h]

/-! ### Closed forms of one whole run of the script -/

theorem pipeline_error (s : Store) (e : String)
    (h : populationJson s.world_population = .error e) :
    pipeline s = Store.mk (continentFixup s.country_continent)
      (capitalFixup s.country_capital) s.country_area s.world_population
      (splitByContinent (continentFixup s.country_continent))
      s.country_population (capFilesAfter s) (areaFilesAfter s) s.popFiles
      (capQAfter s) (areaQAfter s) s.popQuestions := by
  simp only [pipeline, runCap, runArea, runPop, h, continentFixup_idem,
    capFilesAfter, capQAfter, areaFilesAfter, areaQAfter]

theorem pipeline_ok (s : Store) (pops : List PopRec)
    (h : populationJson s.world_population = .ok pops) :
    pipeline s = Store.mk (continentFixup s.country_continent)
      (capitalFixup s.country_capital) s.country_area s.world_population
      (splitByContinent (continentFixup s.country_continent))
      pops (capFilesAfter s) (areaFilesAfter s) (popFilesAfter s pops)
      (capQAfter s) (areaQAfter s) (popQAfter s pops) := by
  simp only [pipeline, runCap, runArea, runPop, h, continentFixup_idem,
    capFilesAfter, capQAfter, areaFilesAfter, areaQAfter, popFilesAfter, popQAfter]

theorem pipeline_idem (s : Store) (hWF : WF s) :
    pipeline (pipeline s) = pipeline s := by
  obtain ⟨h1, h2, h3, h4, h5, h6⟩ := hWF
  cases hpj : populationJson s.world_population with
  | error e =>
    have hP := pipeline_error s e hpj
    have hpj2 : populationJson (pipeline s).world_population = .error e := by
      rw [hP]
      exact hpj
    rw [pipeline_error (pipeline s) e hpj2, hP]
    simp only [capFilesAfter, capQAfter, areaFilesAfter, areaQAfter,
      continentFixup_idem, capitalFixup_idem]
    rw [writeAll_idem _ _ h1, writeAll_idem _ _ h2, writeAll_idem _ _ h4,
      writeAll_idem _ _ h5]
  | ok pops =>
    have hP := pipeline_ok s pops hpj
    have hpj2 : populationJson (pipeline s).world_population = .ok pops := by
      rw [hP]
      exact hpj
    rw [pipeline_ok (pipeline s) pops hpj2, hP]
    simp only [capFilesAfter, capQAfter, areaFilesAfter, areaQAfter,
      popFilesAfter, popQAfter, continentFixup_idem, capitalFixup_idem]
    rw [writeAll_idem _ _ h1, writeAll_idem _ _ h2, writeAll_idem _ _ h3,
      writeAll_idem _ _ h4, writeAll_idem _ _ h5, writeAll_idem _ _ h6]

/-! ### Lookup characterization of the capitals splitter -/

theorem capWrites_lookup (conts : List (String × List String)) (caps : List CapRec)
    (fs : List (String × List CapRec)) (e : String × List String)
    (he : e ∈ conts) (hu : ∀ e2 ∈ conts, mangle e2.1 = mangle e.1 → e2 = e) :
    (capSelect e.2 caps = [] →
      lookupD (writeAll (capWrites conts caps) fs) (mangle e.1)
        = lookupD fs (mangle e.1)) ∧
    (capSelect e.2 caps ≠ [] →
      lookupD (writeAll (capWrites conts caps) fs) (mangle e.1)
        = some (capSelect e.2 caps)) := by
  have hg : ∀ (x : String × List String) (kv : String × List CapRec),
      (let cs := capSelect x.2 caps
       if cs.isEmpty then none else some (mangle x.1, cs)) = some kv →
      kv.1 = mangle x.1 := by
    intro x kv hkv
    simp only at hkv
    split at hkv
    · cases hkv
    · rw [← Option.some.inj hkv]
  have hlv := lastVal_filterMap_unique
    (fun x => let cs := capSelect x.2 caps
              if cs.isEmpty then none else some (mangle x.1, cs))
    (fun x => mangle x.1) hg conts e he hu
  constructor
  · intro hempty
    rw [lookup_writeAll, capWrites, hlv]
    simp only [hempty, List.isEmpty_nil, if_true]
    rfl
  · intro hne
    rw [lookup_writeAll, capWrites, hlv]
    simp only
    rw [if_neg (by
      intro hemp
      exact hne (List.isEmpty_iff.mp hemp))]
    rfl

/-! ### Lemmas about the CSV parsing loop -/

theorem buildPop_append (a b : List (List String)) (m : List (String × Int)) :
    buildPop m (a ++ b)
      = match buildPop m a with
        | .ok m2 => buildPop m2 b
        | .error e => .error e := by
  induction a generalizing m with
  | nil => simp [buildPop]
  | cons line t ih =>
    show buildPop m (line :: (t ++ b)) = _
    cases h3 : getElem? line 3 with
    | none => simp [buildPop, h3]
    | some c =>
      cases h4 : getElem? line 4 with
      | none => simp [buildPop, h3, h4]
      | some p =>
        cases hv : pyInt (removeCommas p) with
        | none => simp [buildPop, h3, h4, hv]
        | some v => simp [buildPop, h3, h4, hv, ih]

theorem buildPop_frame (rows : List (List String)) (m m2 : List (String × Int))
    (k : String) (hok : buildPop m rows = .ok m2)
    (hnone : ∀ l2 ∈ rows, (getElem? l2 3).map pyStrip ≠ some k) :
    lookupD m2 k = lookupD m k := by
  induction rows generalizing m with
  | nil =>
    cases hok
    rfl
  | cons line t ih =>
    cases h3 : getElem? line 3 with
    | none =>
      simp only [buildPop, h3] at hok
      cases hok
    | some c =>
      cases h4 : getElem? line 4 with
      | none =>
        simp only [buildPop, h3, h4] at hok
        cases hok
      | some p =>
        cases hv : pyInt (removeCommas p) with
        | none =>
          simp only [buildPop, h3, h4, hv] at hok
          cases hok
        | some v =>
          simp only [buildPop, h3, h4, hv] at hok
          have hck : pyStrip c ≠ k := by
            intro hh
            apply hnone line (List.mem_cons_self _ _)
            rw [h3, Option.map_some', hh]
          rw [ih _ hok (fun l2 hl2 => hnone l2 (List.mem_cons_of_mem _ hl2)),
            lookup_write, if_neg hck]

/-! ### Lemmas about the rename loop -/

theorem applyRenames_error (rs : List (String × String)) (m : List (String × Int))
    (kv : String × String) (hkv : kv ∈ rs) (hmiss : lookupD m kv.1 = none)
    (hnd : (rs.map Prod.fst).Nodup)
    (hdisj : ∀ b ∈ rs.map Prod.snd, b ∉ rs.map Prod.fst) :
    ∃ k, applyRenames rs m = .error k := by
  induction rs generalizing m with
  | nil => simp at hkv
  | cons ab t ih =>
    obtain ⟨a, b⟩ := ab
    cases hl : lookupD m a with
    | none =>
      refine ⟨a, ?_⟩
      rw [applyRenames, renameD, hl]
    | some w =>
      rcases List.mem_cons.mp hkv with hkv1 | hkv1
      · rw [hkv1] at hmiss
        simp only at hmiss
        rw [hmiss] at hl
        cases hl
      · have hk1t : kv.1 ∈ t.map Prod.fst := List.mem_map_of_mem Prod.fst hkv1
        simp only [List.map_cons, List.nodup_cons] at hnd
        have hka : kv.1 ≠ a := fun hh => hnd.1 (hh ▸ hk1t)
        have hkb : b ≠ kv.1 := by
          intro hh
          have hb : b ∈ ((a, b) :: t).map Prod.snd := by simp
          have := hdisj b hb
          rw [hh] at this
          exact this (by simp [hk1t])
        have hmiss2 : lookupD (write (eraseK m a) b w) kv.1 = none := by
          rw [lookup_write, if_neg hkb, lookup_eraseK_ne _ _ _ hka, hmiss]
        have hdisj2 : ∀ x ∈ t.map Prod.snd, x ∉ t.map Prod.fst := by
          intro x hx hx2
          have hxs : x ∈ ((a, b) :: t).map Prod.snd := by
            simp only [List.map_cons, List.mem_cons]
            exact Or.inr hx
          exact hdisj x hxs (by simp [hx2])
        rcases ih (write (eraseK m a) b w) hkv1 hmiss2 hnd.2 hdisj2 with ⟨k, hk⟩
        refine ⟨k, ?_⟩
        rw [applyRenames, renameD, hl]
        exact hk

/-! ### Further helpers for the end-to-end example -/

theorem entries_eq_of_nodup {β : Type} (m : List (String × β)) (a b : String × β)
    (hn : (keys m).Nodup) (ha : a ∈ m) (hb : b ∈ m) (hk : a.1 = b.1) : a = b := by
  obtain ⟨x, y⟩ := a
  obtain ⟨z, w⟩ := b
  simp only at hk
  subst hk
  have h1 : lookupD m x = some y := lookup_of_mem_nodup _ _ _ hn ha
  have h2 : lookupD m x = some w := lookup_of_mem_nodup _ _ _ hn hb
  rw [Option.some.inj (h1.symm.trans h2)]

theorem keys_split_sub (l : List CCRec) (k : String)
    (h : k ∈ keys (splitByContinent l)) : k ∈ l.map CCRec.continent := by
  rcases lookup_isSome_of_mem_keys _ _ h with ⟨v, hv⟩
  rw [split_lookup] at hv
  by_cases hc : k ∈ l.map CCRec.continent
  · exact hc
  · rw [if_neg hc] at hv
    cases hv

theorem mem_continentFixup_continent (l : List CCRec) (r : CCRec)
    (h : r ∈ continentFixup l) : ∃ r0 ∈ l, r.continent = r0.continent := by
  rw [continentFixup, List.mem_insertionSort] at h
  rcases List.mem_map.mp h with ⟨r0, hr0, hre⟩
  refine ⟨r0, hr0, ?_⟩
  rw [← hre, renameCC]
  by_cases hc : r0.country = holySee
  · rw [if_pos hc]
  · rw [if_neg hc]

theorem runCap_capQuestions (s : Store) : (runCap s).capQuestions
    = writeAll (capQuestionWrites (writeAll (capWrites
        (splitByContinent (continentFixup s.country_continent))
        (capitalFixup s.country_capital)) s.capFiles)) s.capQuestions := by
  simp only [runCap]

theorem mkCapQuestions_items (c : String) (data : List CapRec) :
    (mkCapQuestions c data).data.items
      = List.insertionSort capItemLE
          (data.map (fun d => CapItem.mk d.country [d.city])) := rfl

theorem questionWrite_lookup (CF : List (String × List CapRec))
    (qs : List (String × CapQuestions)) (k : String) (cs : List CapRec)
    (hCF : lookupD CF k = some cs) (hnodup : (keys CF).Nodup) :
    lookupD (writeAll (capQuestionWrites CF) qs) k = some (mkCapQuestions k cs) := by
  have hCFmem : (k, cs) ∈ CF := mem_of_lookup _ _ _ hCF
  have hqlast : lastVal (capQuestionWrites CF) k = some (mkCapQuestions k cs) := by
    rw [capQuestionWrites]
    exact lastVal_map_unique (fun e => e.1) (fun e => mkCapQuestions e.1 e.2) CF
      (k, cs) hCFmem
      (fun b hb hb1 => entries_eq_of_nodup _ b _ hnodup hb hCFmem hb1)
  rw [lookup_writeAll, hqlast]
  rfl

/-! ### The claims -/

/-- C1: running the full pipeline (gen_capital_questions; gen_area_questions;
gen_population_questions) a second time in succession, starting from the
files as the first run left them, produces identical contents for every
output file (the two rewritten source files, continent_to_country.json,
country_population.json, every per-continent JSON file and every
questions YAML file) — stated as value-level equality of the whole working
directory, which under the deterministic serializer is byte identity. -/
theorem c1_pipeline_idempotent (s : Store) (h : WF s) :
    pipeline (pipeline s) = pipeline s :=
  pipeline_idem s h

theorem c1_witness :
    WF (Store.mk [] [] [] [] [] [] [] [] [] [] [] []) ∧
    pipeline (pipeline (Store.mk [] [] [] [] [] [] [] [] [] [] [] []))
      = pipeline (Store.mk [] [] [] [] [] [] [] [] [] [] [] []) :=
  ⟨by decide, c1_pipeline_idempotent _ (by decide)⟩

/-- C2 counterexample: `continent_to_population` has no empty-selection skip:
for a continent ("X") whose country list ["A"] matches zero population
records, the file x_populations.json is still written, with an empty array —
refuting the claim that no file is written for such a continent. -/
theorem c2_counterexample :
    popWrites [("X", ["A"])] ([] : List PopRec) = [("x", [])] ∧
    lookupD (writeAll (popWrites [("X", ["A"])] ([] : List PopRec))
      ([] : List (String × List PopRec))) "x" = some [] := by
  constructor
  · decide
  · decide

/-- C2 (amended): `continent_to_population` performs the same join as
`continent_to_capitals` (records whose country is in the continent's list,
no further filtering) but, unlike it, writes one `<continent>_populations.json`
file for every continent — including continents with zero matching records,
which receive an empty array. -/
theorem c2_population_join (conts : List (String × List String))
    (pops : List PopRec) (fs : List (String × List PopRec))
    (e : String × List String) (he : e ∈ conts)
    (hu : ∀ e2 ∈ conts, mangle e2.1 = mangle e.1 → e2 = e) :
    lookupD (writeAll (popWrites conts pops) fs) (mangle e.1)
      = some (pops.filter (fun p => decide (p.country ∈ e.2))) := by
  rw [lookup_writeAll]
  have h := lastVal_map_unique (fun x => mangle x.1)
    (fun x => pops.filter (fun p => decide (p.country ∈ x.2))) conts e he hu
  rw [popWrites, h]
  rfl

theorem c2_witness :
    (("Europe", ["Finland"]) ∈ [(("Europe" : String), ["Finland"])] ∧
      (∀ e2 ∈ [(("Europe" : String), ["Finland"])],
        mangle e2.1 = mangle "Europe" → e2 = ("Europe", ["Finland"]))) ∧
    lookupD (writeAll (popWrites [("Europe", ["Finland"])]
        [PopRec.mk "Finland" 5548000]) ([] : List (String × List PopRec)))
        (mangle "Europe")
      = some ([PopRec.mk "Finland" 5548000].filter
          (fun p => decide (p.country ∈ ["Finland"]))) :=
  ⟨⟨by decide, by decide⟩,
    c2_population_join [("Europe", ["Finland"])] [PopRec.mk "Finland" 5548000]
      [] ("Europe", ["Finland"]) (by decide) (by decide)⟩

/-- C3 counterexample: on an input with a duplicated record, the written
continent list contains a duplicate, so it is not strictly sorted and the
countries do not occur exactly once — refuting the claim for arbitrary
inputs. -/
theorem c3_counterexample :
    splitByContinent [CCRec.mk "A" "X", CCRec.mk "A" "X"] = [("X", ["A", "A"])] ∧
    ¬ (["A", "A"] : List String).Nodup := by
  constructor
  · rw [splitByContinent,
      show groupByContinent [CCRec.mk "A" "X", CCRec.mk "A" "X"]
        = [("X", ["A", "A"])] from by decide]
    rw [List.map_cons, List.map_nil,
      show List.insertionSort strLE ["A", "A"] = ["A", "A"] from
        List.Sorted.insertionSort_eq
          (by simp [List.sorted_cons, strLE, le_refl])]
  · decide

/-- C3 (amended): when the countries of the input records are pairwise
distinct, `split_by_continent` partitions them: every input record's country
occurs in exactly one continent entry of continent_to_country.json, and each
continent's list is strictly sorted ascending (hence duplicate-free). -/
theorem c3_split_partition (l : List CCRec) (h : (l.map CCRec.country).Nodup) :
    (∀ r ∈ l, ∃! e, e ∈ splitByContinent l ∧ r.country ∈ e.2) ∧
    (∀ e ∈ splitByContinent l, e.2.Sorted (· < ·)) := by
  constructor
  · intro r hr
    have hc : r.continent ∈ l.map CCRec.continent := List.mem_map_of_mem _ hr
    have hlk : lookupD (splitByContinent l) r.continent
        = some (List.insertionSort strLE (countriesOf l r.continent)) := by
      rw [split_lookup, if_pos hc]
    refine ⟨(r.continent, List.insertionSort strLE (countriesOf l r.continent)),
      ⟨mem_of_lookup _ _ _ hlk, ?_⟩, ?_⟩
    · rw [List.mem_insertionSort]
      exact (mem_countriesOf _ _ _).mpr ⟨r, hr, rfl, rfl⟩
    · rintro ⟨c', v'⟩ ⟨he', hmem⟩
      have hlk' : lookupD (splitByContinent l) c' = some v' :=
        lookup_of_mem_nodup _ _ _ (nodup_keys_splitByContinent l) he'
      rw [split_lookup] at hlk'
      by_cases hc' : c' ∈ l.map CCRec.continent
      · rw [if_pos hc'] at hlk'
        have hv' : v' = List.insertionSort strLE (countriesOf l c') :=
          (Option.some.inj hlk').symm
        have hmem2 : r.country ∈ countriesOf l c' := by
          rw [hv', List.mem_insertionSort] at hmem
          exact hmem
        rcases (mem_countriesOf _ _ _).mp hmem2 with ⟨r', hr', hcont, hcountry⟩
        have hrr : r' = r := List.inj_on_of_nodup_map h hr' hr hcountry
        rw [hrr] at hcont
        rw [hv', ← hcont]
      · rw [if_neg hc'] at hlk'
        cases hlk'
  · intro e he
    have hlk : lookupD (splitByContinent l) e.1 = some e.2 :=
      lookup_of_mem_nodup _ _ _ (nodup_keys_splitByContinent l)
        (by cases e; exact he)
    rw [split_lookup] at hlk
    by_cases hc : e.1 ∈ l.map CCRec.continent
    · rw [if_pos hc] at hlk
      have he2 : e.2 = List.insertionSort strLE (countriesOf l e.1) :=
        (Option.some.inj hlk).symm
      rw [he2]
      have hsorted : (List.insertionSort strLE (countriesOf l e.1)).Sorted strLE :=
        List.sorted_insertionSort _ _
      have hnd : (List.insertionSort strLE (countriesOf l e.1)).Nodup :=
        (List.perm_insertionSort _ _).nodup_iff.mpr (nodup_countriesOf l e.1 h)
      have hle : (List.insertionSort strLE (countriesOf l e.1)).Sorted (· ≤ ·) :=
        hsorted.imp (fun hab => hab)
      exact hle.lt_of_le hnd
    · rw [if_neg hc] at hlk
      cases hlk

theorem c3_witness :
    ([CCRec.mk "Finland" "Europe"].map CCRec.country).Nodup ∧
    ((∀ r ∈ [CCRec.mk "Finland" "Europe"],
        ∃! e, e ∈ splitByContinent [CCRec.mk "Finland" "Europe"] ∧ r.country ∈ e.2) ∧
      (∀ e ∈ splitByContinent [CCRec.mk "Finland" "Europe"],
        e.2.Sorted (· < ·))) :=
  ⟨by decide, c3_split_partition [CCRec.mk "Finland" "Europe"] (by decide)⟩

/-- C5: for every input list, each country of the hardcoded correction list
(Belgium, Colombia, Finland, Vatican City, ..., Poland) appears in
capital_fixup's output in exactly one record, carrying the hardcoded city;
the record for "Holy See (Vatican City State)" is absent; and the output is
sorted by country. -/
theorem c5_capital_fixup_overrides (l : List CapRec) (kv : String × String)
    (hkv : kv ∈ overridePairs) :
    (capitalFixup l).filter (fun r => decide (r.country = kv.1))
        = [CapRec.mk kv.1 kv.2] ∧
    (∀ r ∈ capitalFixup l, r.country ≠ holySee) ∧
    (capitalFixup l).Sorted capLE :=
  ⟨capitalFixup_filter_singleton l kv.1 kv.2 (lookup_applyOverrides_mem _ kv hkv),
    fun r hr => capitalFixup_no_holySee l r hr,
    List.sorted_insertionSort capLE _⟩

theorem c5_witness :
    ("Belgium", "Brussels") ∈ overridePairs ∧
    ((capitalFixup []).filter (fun r => decide (r.country = "Belgium"))
        = [CapRec.mk "Belgium" "Brussels"] ∧
      (∀ r ∈ capitalFixup [], r.country ≠ holySee) ∧
      (capitalFixup []).Sorted capLE) :=
  ⟨by decide, c5_capital_fixup_overrides [] ("Belgium", "Brussels") (by decide)⟩

/-- C7: every record written by continent_to_areas into a
`<continent>_areas.json` file has area strictly greater than 1000; no record
with area at most 1000 appears in any such file. -/
theorem c7_area_threshold (conts : List (String × List String))
    (areas : List AreaRec) (p : String × List AreaRec)
    (hp : p ∈ areaWrites conts areas) (r : AreaRec) (hr : r ∈ p.2) :
    1000 < r.area := by
  simp only [areaWrites] at hp
  rcases List.mem_filterMap.mp hp with ⟨e, _, hstep⟩
  split at hstep
  · cases hstep
  · have hp2 := Option.some.inj hstep
    rw [← hp2] at hr
    have hr2 := List.mem_filter.mp hr
    have hr3 := List.mem_filter.mp hr2.1
    exact of_decide_eq_true hr3.2

theorem c7_witness :
    ("x", [AreaRec.mk "A" 2000]) ∈ areaWrites [("X", ["A"])] [AreaRec.mk "A" 2000] ∧
    AreaRec.mk "A" 2000 ∈ [AreaRec.mk "A" 2000] ∧
    (1000 : Int) < (AreaRec.mk "A" 2000).area :=
  ⟨by decide, by decide,
    c7_area_threshold [("X", ["A"])] [AreaRec.mk "A" 2000]
      ("x", [AreaRec.mk "A" 2000]) (by decide) (AreaRec.mk "A" 2000) (by decide)⟩

/-- C6: for each continent, continent_to_capitals writes to
`<continent_lowercase_with_underscores>_capitals.json` exactly the capital
records whose country is in the continent's list and whose city is non-empty,
with characters outside the printable set stripped from the country and city
strings (that is, the `capSelect` of the source); when that selection is
empty, no file is written (the previous directory content at that name is
untouched). -/
theorem c6_capitals_per_continent (conts : List (String × List String))
    (caps : List CapRec) (fs : List (String × List CapRec))
    (e : String × List String) (he : e ∈ conts)
    (hu : ∀ e2 ∈ conts, mangle e2.1 = mangle e.1 → e2 = e) :
    (capSelect e.2 caps = [] →
      lookupD (writeAll (capWrites conts caps) fs) (mangle e.1)
        = lookupD fs (mangle e.1)) ∧
    (capSelect e.2 caps ≠ [] →
      lookupD (writeAll (capWrites conts caps) fs) (mangle e.1)
        = some (capSelect e.2 caps)) :=
  capWrites_lookup conts caps fs e he hu

theorem c6_witness :
    (("Europe", ["Finland"]) ∈ [(("Europe" : String), ["Finland"])] ∧
      (∀ e2 ∈ [(("Europe" : String), ["Finland"])],
        mangle e2.1 = mangle "Europe" → e2 = ("Europe", ["Finland"]))) ∧
    ((capSelect ["Finland"] [CapRec.mk "Finland" "Helsinki"] = [] →
      lookupD (writeAll (capWrites [("Europe", ["Finland"])]
          [CapRec.mk "Finland" "Helsinki"]) ([] : List (String × List CapRec)))
          (mangle "Europe")
        = lookupD ([] : List (String × List CapRec)) (mangle "Europe")) ∧
    (capSelect ["Finland"] [CapRec.mk "Finland" "Helsinki"] ≠ [] →
      lookupD (writeAll (capWrites [("Europe", ["Finland"])]
          [CapRec.mk "Finland" "Helsinki"]) ([] : List (String × List CapRec)))
          (mangle "Europe")
        = some (capSelect ["Finland"] [CapRec.mk "Finland" "Helsinki"]))) :=
  ⟨⟨by decide, by decide⟩,
    c6_capitals_per_continent [("Europe", ["Finland"])]
      [CapRec.mk "Finland" "Helsinki"] [] ("Europe", ["Finland"])
      (by decide) (by decide)⟩

/-- C8: for every row of the CSV, population_json records under the
whitespace-stripped column-index-3 country name the integer obtained from the
column-index-4 value with commas removed, multiplied by 1000 (provided no
later row carries the same stripped country name, in which case that later
row would overwrite the entry). -/
theorem c8_population_row (pre post : List (List String)) (line : List String)
    (m : List (String × Int)) (c p : String) (v : Int)
    (hbuild : buildPop [] (pre ++ line :: post) = .ok m)
    (hc : getElem? line 3 = some c) (hp : getElem? line 4 = some p)
    (hv : pyInt (removeCommas p) = some v)
    (hlast : ∀ l2 ∈ post, (getElem? l2 3).map pyStrip ≠ some (pyStrip c)) :
    lookupD m (pyStrip c) = some (v * 1000) := by
  rw [buildPop_append] at hbuild
  cases hpre : buildPop [] pre with
  | error e =>
    simp only [hpre] at hbuild
    cases hbuild
  | ok m0 =>
    simp only [hpre] at hbuild
    simp only [buildPop, hc, hp, hv] at hbuild
    rw [buildPop_frame post _ m _ hbuild hlast, lookup_write, if_pos rfl]

theorem c8_witness :
    buildPop [] ([] ++ ["a", "b", "c", "Finland", "5,548"] :: [])
        = .ok [("Finland", 5548000)] ∧
    getElem? ["a", "b", "c", "Finland", "5,548"] 3 = some "Finland" ∧
    getElem? ["a", "b", "c", "Finland", "5,548"] 4 = some "5,548" ∧
    pyInt (removeCommas "5,548") = some 5548 ∧
    lookupD [(("Finland" : String), (5548000 : Int))] (pyStrip "Finland")
      = some ((5548 : Int) * 1000) :=
  ⟨by decide, by decide, by decide, by decide,
    c8_population_row [] [] ["a", "b", "c", "Finland", "5,548"]
      [("Finland", 5548000)] "Finland" "5,548" 5548
      (by decide) (by decide) (by decide) (by decide)
      (fun l2 hl2 => absurd hl2 (List.not_mem_nil l2))⟩

/-- C9: if the parsed population table lacks any of the 34 hardcoded rename
source keys, population_json raises an uncaught KeyError inside rename, and
country_population.json and everything downstream of it are not written (the
renames all run before the output file is opened). -/
theorem c9_missing_rename_key (s : Store) (m : List (String × Int))
    (hbuild : buildPop [] s.world_population = .ok m)
    (kv : String × String) (hkv : kv ∈ renames) (hmiss : lookupD m kv.1 = none) :
    (∃ k, populationJson s.world_population = .error k) ∧
    (runPop s).country_population = s.country_population ∧
    (runPop s).popFiles = s.popFiles ∧
    (runPop s).popQuestions = s.popQuestions := by
  have hnd : (renames.map Prod.fst).Nodup := by decide
  have hdisj : ∀ b ∈ renames.map Prod.snd, b ∉ renames.map Prod.fst := by decide
  rcases applyRenames_error renames m kv hkv hmiss hnd hdisj with ⟨k, hk⟩
  have hpj : populationJson s.world_population = .error k := by
    simp only [populationJson, hbuild, hk]
  refine ⟨⟨k, hpj⟩, ?_, ?_, ?_⟩ <;> simp only [runPop, hpj]

theorem c9_witness :
    buildPop [] (Store.mk [] [] [] [] [] [] [] [] [] [] [] []).world_population
        = .ok [] ∧
    ("Egypt, Arab Rep.", "Egypt") ∈ renames ∧
    lookupD ([] : List (String × Int)) "Egypt, Arab Rep." = none ∧
    ((∃ k, populationJson
        (Store.mk [] [] [] [] [] [] [] [] [] [] [] []).world_population
          = .error k) ∧
      (runPop (Store.mk [] [] [] [] [] [] [] [] [] [] [] [])).country_population
        = (Store.mk [] [] [] [] [] [] [] [] [] [] [] []).country_population ∧
      (runPop (Store.mk [] [] [] [] [] [] [] [] [] [] [] [])).popFiles
        = (Store.mk [] [] [] [] [] [] [] [] [] [] [] []).popFiles ∧
      (runPop (Store.mk [] [] [] [] [] [] [] [] [] [] [] [])).popQuestions
        = (Store.mk [] [] [] [] [] [] [] [] [] [] [] []).popQuestions) :=
  ⟨by decide, by decide, by decide,
    c9_missing_rename_key (Store.mk [] [] [] [] [] [] [] [] [] [] [] []) []
      (by decide) ("Egypt, Arab Rep.", "Egypt") (by decide) (by decide)⟩

/-- C10: capital_fixup leaves every uncorrected entry unchanged: a country
that is not an override key and not "Holy See (Vatican City State)" appears
in the output in exactly one record, carrying the city of its last
occurrence in the input, exactly as read. -/
theorem c10_uncorrected_preserved (l : List CapRec) (c : String) (r0 : CapRec)
    (hfind : l.reverse.find? (fun r => decide (r.country = c)) = some r0)
    (hnk : c ∉ keys overridePairs) (hhs : c ≠ holySee) :
    (capitalFixup l).filter (fun r => decide (r.country = c))
      = [CapRec.mk c r0.city] := by
  apply capitalFixup_filter_singleton
  rw [lookup_applyOverrides_other _ _ hnk hhs, lookup_fromRecs, hfind]
  rfl

theorem c10_witness :
    ([CapRec.mk "France" "Paris", CapRec.mk "France" "Lyon"].reverse.find?
        (fun r => decide (r.country = "France")) = some (CapRec.mk "France" "Lyon")) ∧
    "France" ∉ keys overridePairs ∧ "France" ≠ holySee ∧
    (capitalFixup [CapRec.mk "France" "Paris", CapRec.mk "France" "Lyon"]).filter
        (fun r => decide (r.country = "France"))
      = [CapRec.mk "France" (CapRec.mk "France" "Lyon").city] :=
  ⟨by decide, by decide, by decide,
    c10_uncorrected_preserved [CapRec.mk "France" "Paris", CapRec.mk "France" "Lyon"]
      "France" (CapRec.mk "France" "Lyon") (by decide) (by decide) (by decide)⟩

/-- C4: if country_continent.json contains {"Finland", "Europe"} and
country_capital.json has no record for Finland, then after
gen_capital_questions runs (continent_fixup; split_by_continent;
capital_fixup; continent_to_capitals; continent_capitals_questions),
questions/europe_capitals.yaml contains an item with question "Finland" and
answers ["Helsinki"].  (The uniqueness hypothesis rules out a second
continent name that also mangles to "europe" and would overwrite the file;
the well-formedness hypotheses say the directory has no duplicate file
names.) -/
theorem c4_finland_example (s : Store)
    (hfin : CCRec.mk "Finland" "Europe" ∈ s.country_continent)
    (hnofin : ∀ r ∈ s.country_capital, r.country ≠ "Finland")
    (hmangle : ∀ r ∈ s.country_continent,
      mangle r.continent = "europe" → r.continent = "Europe")
    (hWFf : (keys s.capFiles).Nodup) (hWFq : (keys s.capQuestions).Nodup) :
    ∃ q, lookupD (runCap s).capQuestions "europe" = some q ∧
      CapItem.mk "Finland" ["Helsinki"] ∈ q.data.items := by
  have hfix : CCRec.mk "Finland" "Europe" ∈ continentFixup s.country_continent := by
    rw [continentFixup, List.mem_insertionSort]
    have h0 := List.mem_map_of_mem renameCC hfin
    rwa [show renameCC (CCRec.mk "Finland" "Europe") = CCRec.mk "Finland" "Europe" from
      by rw [renameCC, if_neg (by decide)]] at h0
  have hEurMem : "Europe" ∈ (continentFixup s.country_continent).map CCRec.continent :=
    List.mem_map_of_mem CCRec.continent hfix
  have hsplitlk : lookupD (splitByContinent (continentFixup s.country_continent)) "Europe"
      = some (List.insertionSort strLE
          (countriesOf (continentFixup s.country_continent) "Europe")) := by
    rw [split_lookup, if_pos hEurMem]
  have hFinL : "Finland" ∈ List.insertionSort strLE
      (countriesOf (continentFixup s.country_continent) "Europe") := by
    rw [List.mem_insertionSort]
    exact (mem_countriesOf _ _ _).mpr ⟨CCRec.mk "Finland" "Europe", hfix, rfl, rfl⟩
  have hFH : CapRec.mk "Finland" "Helsinki" ∈ capitalFixup s.country_capital := by
    have hf := capitalFixup_filter_singleton s.country_capital "Finland" "Helsinki"
      (lookup_applyOverrides_mem _ ("Finland", "Helsinki") (by decide))
    have hmemf : CapRec.mk "Finland" "Helsinki"
        ∈ (capitalFixup s.country_capital).filter
          (fun r => decide (r.country = "Finland")) := by
      rw [hf]
      exact List.mem_cons_self _ _
    exact List.mem_of_mem_filter hmemf
  have hsel : CapRec.mk "Finland" "Helsinki"
      ∈ capSelect (List.insertionSort strLE
          (countriesOf (continentFixup s.country_continent) "Europe"))
        (capitalFixup s.country_capital) := by
    rw [capSelect]
    have hstrip : (fun c => CapRec.mk (fprint c.country) (fprint c.city))
        (CapRec.mk "Finland" "Helsinki") = CapRec.mk "Finland" "Helsinki" := by decide
    exact List.mem_map.mpr ⟨CapRec.mk "Finland" "Helsinki",
      List.mem_filter.mpr ⟨hFH, by simp [hFinL]⟩, hstrip⟩
  have hne : capSelect (List.insertionSort strLE
      (countriesOf (continentFixup s.country_continent) "Europe"))
      (capitalFixup s.country_capital) ≠ [] := List.ne_nil_of_mem hsel
  have hEntry : ("Europe", List.insertionSort strLE
      (countriesOf (continentFixup s.country_continent) "Europe"))
      ∈ splitByContinent (continentFixup s.country_continent) :=
    mem_of_lookup _ _ _ hsplitlk
  have huniq : ∀ e2 ∈ splitByContinent (continentFixup s.country_continent),
      mangle e2.1 = mangle "Europe" →
      e2 = ("Europe", List.insertionSort strLE
        (countriesOf (continentFixup s.country_continent) "Europe")) := by
    intro e2 he2 hm
    have hk2 : e2.1 ∈ keys (splitByContinent (continentFixup s.country_continent)) :=
      List.mem_map_of_mem Prod.fst he2
    have hc2 : e2.1 ∈ (continentFixup s.country_continent).map CCRec.continent :=
      keys_split_sub _ _ hk2
    rcases List.mem_map.mp hc2 with ⟨r2, hr2, hr2e⟩
    rcases mem_continentFixup_continent _ _ hr2 with ⟨r0, hr0, hr0e⟩
    have hmang0 : mangle r0.continent = "europe" := by
      rw [← hr0e, hr2e, hm]
      decide
    have hEur : e2.1 = "Europe" := by
      rw [← hr2e, hr0e]
      exact hmangle r0 hr0 hmang0
    exact entries_eq_of_nodup _ e2 _ (nodup_keys_splitByContinent _) he2 hEntry hEur
  have hcw := (capWrites_lookup (splitByContinent (continentFixup s.country_continent))
      (capitalFixup s.country_capital) s.capFiles
      ("Europe", List.insertionSort strLE
        (countriesOf (continentFixup s.country_continent) "Europe"))
      hEntry huniq).2 hne
  rw [show mangle "Europe" = "europe" from by decide] at hcw
  have hCFnodup : (keys (writeAll (capWrites
      (splitByContinent (continentFixup s.country_continent))
      (capitalFixup s.country_capital)) s.capFiles)).Nodup :=
    nodup_keys_writeAll _ _ hWFf
  have hq := questionWrite_lookup
    (writeAll (capWrites (splitByContinent (continentFixup s.country_continent))
      (capitalFixup s.country_capital)) s.capFiles)
    s.capQuestions "europe"
    (capSelect (List.insertionSort strLE
      (countriesOf (continentFixup s.country_continent) "Europe"))
      (capitalFixup s.country_capital)) hcw hCFnodup
  rw [runCap_capQuestions]
  refine ⟨mkCapQuestions "europe" (capSelect (List.insertionSort strLE
      (countriesOf (continentFixup s.country_continent) "Europe"))
      (capitalFixup s.country_capital)), hq, ?_⟩
  rw [mkCapQuestions_items, List.mem_insertionSort]
  exact List.mem_map.mpr ⟨CapRec.mk "Finland" "Helsinki", hsel, rfl⟩

theorem c4_witness :
    (CCRec.mk "Finland" "Europe"
        ∈ (Store.mk [CCRec.mk "Finland" "Europe"] [] [] [] [] [] [] [] [] [] [] []).country_continent ∧
      (∀ r ∈ (Store.mk [CCRec.mk "Finland" "Europe"] [] [] [] [] [] [] [] [] [] [] []).country_capital,
        r.country ≠ "Finland") ∧
      (∀ r ∈ (Store.mk [CCRec.mk "Finland" "Europe"] [] [] [] [] [] [] [] [] [] [] []).country_continent,
        mangle r.continent = "europe" → r.continent = "Europe")) ∧
    (∃ q, lookupD (runCap (Store.mk [CCRec.mk "Finland" "Europe"]
        [] [] [] [] [] [] [] [] [] [] [])).capQuestions "europe" = some q ∧
      CapItem.mk "Finland" ["Helsinki"] ∈ q.data.items) :=
  ⟨⟨by decide, by decide, by decide⟩,
    c4_finland_example (Store.mk [CCRec.mk "Finland" "Europe"] [] [] [] [] [] [] [] [] [] [] [])
      (by decide) (by decide) (by decide) (by decide) (by decide)⟩

end Wrangle
